import Mathlib

/-!
Verification of the AliSim sequence simulator (`AliSimulator`, files
`alisimulator.cpp` / `part_000`) against its natural-language specification.

The C++ code is shallowly embedded in Lean:

* machine `double` values are modelled as `ℚ` (every concrete value the
  claims touch is an exact decimal, and the pseudo-random draws that the
  code obtains from the global RNG become explicit parameters — "tapes" —
  of the embedded functions);
* `int` / `short int` values are modelled as `ℤ`, `vector<short int>`
  sequences as `List ℤ`;
* calls into the model / likelihood engine (an "external collaborator" per
  the spec) are parameters of the embedding;
* `outError` (fatal error) is modelled by returning `none` from an
  `Option` result.
-/

set_option maxRecDepth 8000

namespace AliSim

/-- The `SIMULATION_METHOD` enum of the simulator. -/
inductive SimMethod where
  | RATE_MATRIX
  | TRANS_PROB_MATRIX
deriving DecidableEq, Repr

/-- Shallow embedding of the per-edge simulation-method selection performed by
`AliSimulator::simulateSeqs` (part_000, lines 878-883):

    SIMULATION_METHOD simulation_method = RATE_MATRIX;
    if (((*it)->length * params->alisim_branch_scale > params->alisim_simulation_thresh
            && !(model->isMixture() && params->alisim_mixture_at_sub_level))
        || tree->getRate()->isHeterotachy()
        || (*it)->attributes["model"].length()>0)
        simulation_method = TRANS_PROB_MATRIX;

`branchModelAttrLen` is the length of the `model` attribute string attached to
the edge. -/
def selectSimulationMethod (edgeLength branchScale simThresh : ℚ)
    (isMixture mixtureAtSubLevel isHeterotachy : Bool)
    (branchModelAttrLen : ℕ) : SimMethod :=
  if (edgeLength * branchScale > simThresh ∧ ¬(isMixture = true ∧ mixtureAtSubLevel = true))
      ∨ isHeterotachy = true
      ∨ 0 < branchModelAttrLen
  then SimMethod.TRANS_PROB_MATRIX
  else SimMethod.RATE_MATRIX

/-- Shallow embedding of `AliSimulator::computeSwitchingParam` (part_000, lines
2320-2353).  `userThresh = some t` models the case in which the command line
contains `--simulation-thresh` (the parameter is then left at its current
value `t`); `isContinuousGamma` is `tree->getModelFactory()->is_continuous_gamma`. -/
def computeSwitchingParam (userThresh : Option ℚ) (isContinuousGamma : Bool)
    (seqLength : ℤ) : ℚ :=
  match userThresh with
  | some t => t
  | none =>
    let a : ℚ :=
      if ¬ isContinuousGamma = true then
        if seqLength ≥ 1000000 then 1
        else if seqLength ≥ 500000 then 1.1
        else if seqLength ≥ 100000 then 1.4
        else 2.226224503
      else
        if seqLength ≥ 1000000 then 6
        else if seqLength ≥ 500000 then 7
        else if seqLength ≥ 100000 then 9.1
        else 13.3073605
    a / (seqLength : ℚ)

/-- Shallow embedding of `AliSimulator::estimateLengthRatio` (part_000, lines
1201-1275).  The external likelihood engine and `exp` are out of scope; the
already-exponentiated per-pattern log-likelihoods `exp(patterns_llh[i])` are
supplied as the parameter `expPatternLlh`.  The first `numStates` patterns are
the all-constant patterns.  The `isfinite` test on the accumulated `double`
sum is modelled by the flag `sumIsFinite` (in `ℚ` every value is finite, so
the flag records what IEEE arithmetic would have reported).
`userRho = some v` models a user-supplied `--length-ratio`. -/
def estimateLengthRho (hasASC : Bool) (userRho : Option ℚ)
    (expPatternLlh : ℕ → ℚ) (numStates : ℕ) (sumIsFinite : Bool) : ℚ :=
  if hasASC = true then
    match userRho with
    | some v => v
    | none =>
      let estimated : ℚ := ∑ i in Finset.range numStates, expPatternLlh i
      let estimated' : ℚ :=
        if ¬ sumIsFinite = true ∨ estimated > 1 then 1/2 else estimated
      1 / (1 - estimated') + 1/10
  else 1

def binarysearchItemWithAccumulatedProbabilityMatrix
    (a : ℤ → ℚ) (random_number : ℚ) (start_ stop first : ℤ) : ℤ :=
  if start_ > stop then -1
  else
    let center := (start_ + stop) / 2
    if random_number ≤ a center ∧ (center = first ∨ random_number > a (center - 1)) then
      center
    else if random_number ≤ a center then
      binarysearchItemWithAccumulatedProbabilityMatrix a random_number start_ (center - 1) first
    else
      binarysearchItemWithAccumulatedProbabilityMatrix a random_number (center + 1) stop first
termination_by (stop + 1 - start_).toNat
decreasing_by all_goals omega

def getRandomItemWithAccumulatedProbMatrixMaxProbFirst
    (a : ℤ → ℚ) (starting_index num_columns max_prob_position : ℤ)
    (random_number : ℚ) : ℤ :=
  if random_number ≥
      (if max_prob_position = 0 then 0 else a (starting_index + max_prob_position - 1)) then
    if random_number ≤ a (starting_index + max_prob_position) then
      max_prob_position
    else
      binarysearchItemWithAccumulatedProbabilityMatrix a random_number
        (starting_index + max_prob_position + 1) (starting_index + (num_columns - 1))
        starting_index
      - starting_index
  else
    binarysearchItemWithAccumulatedProbabilityMatrix a random_number
      starting_index (starting_index + max_prob_position - 1) starting_index
    - starting_index

/-- The least index in `[lo, hi]` whose accumulated value reaches `random_number`
(`hi` itself if no earlier index qualifies): the reference answer both search
routines are compared with. -/
def leastIdxGE (a : ℤ → ℚ) (r : ℚ) (lo hi : ℤ) : ℤ :=
  if lo ≥ hi then hi
  else if r ≤ a lo then lo
  else leastIdxGE a r (lo + 1) hi
termination_by (hi - lo).toNat
decreasing_by all_goals omega

def c10Row : ℤ → ℚ := fun i => if i ≤ 0 then 1/2 else 1

/-- `l[i]` with a default for out-of-range access (a negative or too-large
index is never reached by the embedded code on the inputs the theorems
consider). -/
def listGetD {α : Type} (l : List α) (i : ℤ) (d : α) : α :=
  if 0 ≤ i ∧ i < (l.length : ℤ) then l.getD i.toNat d else d

/-- `l[i] = v` (an out-of-range write is a no-op, never reached). -/
def listSet {α : Type} (l : List α) (i : ℤ) (v : α) : List α :=
  l.set i.toNat v

/-- `position < sequence.size() && sequence[position] == STATE_UNKNOWN` —
the landing-on-a-gap test of `selectValidPositionForIndels` (negative
`position` compares false, as the `int`/`size_t` comparison does). -/
def landsOnGap (unk : ℤ) (seq : List ℤ) (pos : ℤ) : Prop :=
  0 ≤ pos ∧ pos < (seq.length : ℤ) ∧ listGetD seq pos 0 = unk

instance (unk : ℤ) (seq : List ℤ) (pos : ℤ) : Decidable (landsOnGap unk seq pos) := by
  unfold landsOnGap
  infer_instance

/-- The inner scan of `AliSimulator::selectValidPositionForIndels` (part_000,
lines 2206-2209): starting from a gap, walk forward until the first position
that is the end of the sequence or holds a non-gap state, but not past
`upper_bound`. -/
def scanForward (unk : ℤ) (seq : List ℤ) (upper_bound pos : ℤ) : ℤ :=
  if pos < upper_bound then
    if pos = (seq.length : ℤ) ∨ ¬ listGetD seq pos 0 = unk then pos
    else scanForward unk seq upper_bound (pos + 1)
  else pos
termination_by (upper_bound - pos).toNat
decreasing_by all_goals omega

/-- The retry loop of `AliSimulator::selectValidPositionForIndels` (part_000,
lines 2200-2214): up to `upper_bound` attempts, each drawing a candidate
`posTape i`, scanning forward if it lands on a gap, and stopping at the first
valid position.  `pos` is the value of the C++ `position` variable carried
across iterations. -/
def selectValidPositionLoop (unk : ℤ) (posTape : ℕ → ℕ) (upper_bound : ℤ)
    (seq : List ℤ) (i : ℕ) (pos : ℤ) : ℤ :=
  if (i : ℤ) < upper_bound then
    let p0 : ℤ := (posTape i : ℤ)
    let p1 := if landsOnGap unk seq p0 then scanForward unk seq upper_bound p0 else p0
    if p1 = (seq.length : ℤ) ∨ ¬ listGetD seq p1 0 = unk then p1
    else selectValidPositionLoop unk posTape upper_bound seq (i + 1) p1
  else pos
termination_by (upper_bound - i).toNat
decreasing_by all_goals omega

/-- Shallow embedding of `AliSimulator::selectValidPositionForIndels`
(part_000, lines 2198-2219); `none` models the `outError` path. -/
def selectValidPositionForIndels (unk : ℤ) (posTape : ℕ → ℕ)
    (upper_bound : ℤ) (seq : List ℤ) : Option ℤ :=
  let position := selectValidPositionLoop unk posTape upper_bound seq 0 (-1)
  if landsOnGap unk seq position then none else some position

/-- The 1000-attempt rejection loop shared by `handleInsertion` (part_000,
lines 2053-2061) and `handleDeletion` (lines 2106-2114): `draws i` is the
value returned by the `i`-th call of `generateIndelSize`, and the C++
`length` variable (initialised to `-1`) is the carried argument. -/
def generateIndelLoop (draws : ℕ → ℤ) (i : ℕ) (len : ℤ) : ℤ :=
  if i < 1000 then
    if 0 < draws i then draws i
    else generateIndelLoop draws (i + 1) (draws i)
  else len
termination_by 1000 - i

/-- The rejection loop followed by the `length <= 0` fatal check (part_000,
lines 2062-2064 and 2115-2117). -/
def drawIndelSize (draws : ℕ → ℤ) : Option ℤ :=
  let len := generateIndelLoop draws 0 (-1)
  if len ≤ 0 then none else some len

/-- The `Insertion` record pushed by `handleInsertion`:
`Insertion(position, length, position == sequence_length)`. -/
structure Insertion where
  position : ℤ
  length : ℤ
  appended_flag : Bool
deriving DecidableEq, Repr

/-- Static data consumed by the indel handlers: the alphabet, the simulation
method, the cached model quantities (`sub_rates`, state frequencies,
site-specific rate / model-component tables) and the RNG tapes that stand for
the successive draws of `random_int` / `generateIndelSize` /
`random_double`. -/
structure IndelCfg where
  unk : ℤ
  S : ℤ
  isRM : Bool
  freqEqual : Bool
  stateFreqs : ℤ → ℚ
  subRatesVec : ℤ → ℚ
  siteModelIdx : List ℤ
  siteRates : List ℚ
  posTape : ℕ → ℕ
  lenTape : ℕ → ℤ
  delLenTape : ℕ → ℤ
  newIntTape : ℕ → ℕ
  newQTape : ℕ → ℚ

/-- Mutable state threaded through the indel handlers: `sequence_length`,
the branch's sequence, `total_sub_rate`, `sub_rate_by_site`, and the global
insertion list (the linked list headed by `first_insertion`, whose tail is
`latest_insertion`). -/
structure IndelState where
  seqLen : ℤ
  seq : List ℤ
  totalSubRate : ℚ
  subRateBySite : List ℚ
  insertions : List Insertion

/-- In-place prefix sums of one row, as left by
`convertProMatrixIntoAccumulatedProMatrix(row, 1, num_columns)` (part_000,
lines 1095-1103). -/
def accumulateRow (f : ℤ → ℚ) (idx : ℤ) : ℚ :=
  ∑ j in Finset.range (idx.toNat + 1), f (j : ℤ)

/-- The argmax scan of `AliSimulator::generateRandomSequence` (part_000,
lines 654-657). -/
def maxProbPosOfFreqs (f : ℤ → ℚ) (S : ℤ) : ℤ :=
  (List.range S.toNat).foldl (fun best j => if f (j : ℤ) > f best then (j : ℤ) else best) 0

/-- Shallow embedding of `AliSimulator::generateRandomSequenceFromStateFreqs`
(part_000, lines 1706-1719); `rng i` is the `random_double()` draw of site `i`. -/
def generateRandomSequenceFromStateFreqs (S : ℤ) (freqs : ℤ → ℚ) (maxProbPos : ℤ)
    (rng : ℕ → ℚ) (len : ℕ) : List ℤ :=
  (List.range len).map fun i =>
    getRandomItemWithAccumulatedProbMatrixMaxProbFirst (accumulateRow freqs) 0 S maxProbPos (rng i)

/-- Shallow embedding of `AliSimulator::generateRandomSequence` (part_000,
lines 630-667) with `initial_freqs = false` (state frequencies are taken from
the model as they are — parameter `stateFreqs`). -/
def generateRandomSequence (cfg : IndelCfg) (len : ℕ) : List ℤ :=
  if cfg.freqEqual then (List.range len).map fun i => (cfg.newIntTape i : ℤ)
  else generateRandomSequenceFromStateFreqs cfg.S cfg.stateFreqs
    (maxProbPosOfFreqs cfg.stateFreqs cfg.S) cfg.newQTape len

/-- Shallow embedding of `AliSimulator::insertNewSequenceForInsertionEvent`
(part_000, lines 1967-1970): `vector::insert` at `begin() + position`. -/
def insertNewSequenceForInsertionEvent (indel_sequence : List ℤ) (position : ℤ)
    (new_sequence : List ℤ) : List ℤ :=
  indel_sequence.take position.toNat ++ new_sequence ++ indel_sequence.drop position.toNat

/-- The `sub_rate_by_site` update loop for freshly inserted sites (part_000,
lines 2074-2082), run from `position` to `position + length - 1` over the
already-spliced sequence. -/
def insertionRatesLoop (cfg : IndelCfg) (seqNew : List ℤ) (stop : ℤ) :
    ℤ → List ℚ → ℚ → List ℚ × ℚ := fun i srbs change =>
  if i < stop then
    let mix := if cfg.siteModelIdx.length = 0 then 0 else listGetD cfg.siteModelIdx i 0
    let srate := if 0 < cfg.siteRates.length then listGetD cfg.siteRates i 1 else 1
    let v := srate * cfg.subRatesVec (mix * cfg.S + listGetD seqNew i 0)
    insertionRatesLoop cfg seqNew stop (i + 1) (listSet srbs i v) (change + v)
  else (srbs, change)
termination_by i _ _ => (stop - i).toNat
decreasing_by all_goals omega

/-- Shallow embedding of `AliSimulator::handleInsertion` (part_000, lines
2047-2098).  Returns `none` on either fatal error (no valid position, or no
positive length within 1000 attempts); otherwise the updated state and the
insertion size.  The new record is linked at the tail of the insertion list
(`latest_insertion->next = new_insertion; latest_insertion = new_insertion`),
which on the list representation is exactly appending. -/
def handleInsertion (cfg : IndelCfg) (st : IndelState) : Option (IndelState × ℤ) :=
  match selectValidPositionForIndels cfg.unk cfg.posTape (st.seqLen + 1) st.seq with
  | none => none
  | some position =>
    match drawIndelSize cfg.lenTape with
    | none => none
    | some length =>
      let new_sequence := generateRandomSequence cfg length.toNat
      let seqNew := insertNewSequenceForInsertionEvent st.seq position new_sequence
      let rateUpd :=
        if cfg.isRM then
          let srbs0 := st.subRateBySite.take position.toNat
            ++ List.replicate length.toNat 0 ++ st.subRateBySite.drop position.toNat
          let upd := insertionRatesLoop cfg seqNew (position + length) position srbs0 0
          (upd.1, st.totalSubRate + upd.2)
        else (st.subRateBySite, st.totalSubRate)
      let new_insertion : Insertion := ⟨position, length, decide (position = st.seqLen)⟩
      some ({ seqLen := st.seqLen + length, seq := seqNew, totalSubRate := rateUpd.2,
              subRateBySite := rateUpd.1,
              insertions := st.insertions ++ [new_insertion] }, length)

/-- The site-replacement walk of `AliSimulator::handleDeletion` (part_000,
lines 2126-2149): starting at the selected position, replace non-gap sites by
gaps until `length` sites are deleted or the end of the sequence is reached,
skipping sites that are already gaps; under RATE_MATRIX, zero the per-site
substitution rate of each visited index and accumulate the change. -/
def handleDeletionLoop (unk : ℤ) (isRM : Bool) (length : ℤ) :
    List ℤ → List ℚ → ℤ → ℤ → ℤ → ℚ → List ℤ × List ℚ × ℤ × ℚ :=
  fun seq srbs i pos real change =>
  if i < length ∧ pos + i < (seq.length : ℤ) then
    if ¬ listGetD seq (pos + i) 0 = unk then
      let seqNew := listSet seq (pos + i) unk
      let srbsNew := if isRM then listSet srbs (pos + i) 0 else srbs
      let changeNew := if isRM then change - listGetD srbs (pos + i) 0 else change
      handleDeletionLoop unk isRM length seqNew srbsNew (i + 1) pos (real + 1) changeNew
    else
      let srbsNew := if isRM then listSet srbs (pos + i) 0 else srbs
      let changeNew := if isRM then change - listGetD srbs (pos + i) 0 else change
      handleDeletionLoop unk isRM length seq srbsNew i (pos + 1) real changeNew
  else (seq, srbs, real, change)
termination_by seq _ i pos _ _ => ((seq.length : ℤ) - (pos + i)).toNat
decreasing_by
  all_goals try simp only [listSet, List.length_set] at *
  all_goals omega

/-- Shallow embedding of `AliSimulator::handleDeletion` (part_000, lines
2103-2157).  Returns `none` on either fatal error; otherwise the updated
state and `real_deleted_length` (the number of sites actually replaced by
gaps). -/
def handleDeletion (cfg : IndelCfg) (st : IndelState) : Option (IndelState × ℤ) :=
  match drawIndelSize cfg.delLenTape with
  | none => none
  | some length =>
    let posOpt : Option ℤ :=
      if 0 < st.seqLen - length then
        selectValidPositionForIndels cfg.unk cfg.posTape (st.seqLen - length) st.seq
      else some 0
    match posOpt with
    | none => none
    | some position =>
      let res := handleDeletionLoop cfg.unk cfg.isRM length st.seq st.subRateBySite 0 position 0 0
      let tsrNew := if cfg.isRM then st.totalSubRate + res.2.2.2 else st.totalSubRate
      some ({ st with seq := res.1, subRateBySite := res.2.1, totalSubRate := tsrNew }, res.2.2.1)

/-- Concrete configuration used by the insertion/deletion witnesses: a
4-state alphabet with gap state 100, equal frequencies, TRANS_PROB branch
(`isRM = false`), position draws always 0, insertion sizes always 2,
deletion sizes always 1. -/
def c3Cfg : IndelCfg :=
  { unk := 100, S := 4, isRM := false, freqEqual := true,
    stateFreqs := fun _ => 1/4, subRatesVec := fun _ => 0,
    siteModelIdx := [], siteRates := [],
    posTape := fun _ => 0, lenTape := fun _ => 2, delLenTape := fun _ => 1,
    newIntTape := fun _ => 1, newQTape := fun _ => 0 }

/-- Concrete pre-event state for the witnesses: the two-site sequence `[0, 1]`. -/
def c3St : IndelState :=
  { seqLen := 2, seq := [0, 1], totalSubRate := 0, subRateBySite := [], insertions := [] }

/-- The state after the witnessed insertion: two new sites spliced at 0. -/
def c3St2 : IndelState :=
  { seqLen := 4, seq := [1, 1, 0, 1], totalSubRate := 0, subRateBySite := [],
    insertions := [⟨0, 2, false⟩] }

/-- C's `round` (half away from zero), used as `round(expected_num_sites /
length_ratio)` and `round(proportion * num_sites)` in the code. -/
def roundHalfFromZero (x : ℚ) : ℤ :=
  if 0 ≤ x then ⌊x + 1/2⌋ else ⌈x - 1/2⌉

/-- One `operator<<` of the output stream: append to the already-written text. -/
def writeStr (out s : List Char) : List Char := out ++ s

/-- The PHYLIP first line written by `AliSimulator::simulateSeqsForTree`
(part_000, lines 767-772): `*out << num_leaves << " " << output_len << endl`,
where `output_len` is `round(expected_num_sites/length_ratio) * num_sites_per_state`. -/
def phylipFirstLineWrite (out : List Char) (num_leaves output_len : ℤ) : List Char :=
  writeStr (writeStr (writeStr (writeStr out num_leaves.repr.toList) [' '])
    output_len.repr.toList) ['\n']

/-- Shallow embedding of `AliSimulator::exportPreOutputString` (part_000,
lines 1052-1068).  In PHYLIP mode the name is `resize`d to
`max_length_taxa_name` with `' '` fill — `std::string::resize` truncates or
appends at the END of the string. -/
def exportPreOutputString (name : List Char) (nodeId : ℤ) (isFasta : Bool)
    (max_length_taxa_name : ℕ) : List Char :=
  let pre := if name.length = 0 then nodeId.repr.toList else name
  if ¬ isFasta = true then
    pre.take max_length_taxa_name ++ List.replicate (max_length_taxa_name - pre.length) ' '
  else ('>' :: pre) ++ ['\n']

/-- The `num_sites_per_state` characters written for one state by
`convertNumericalStatesIntoReadableCharacters` (the output buffer is
pre-filled with `' '`, so a too-short mapping entry leaves fill characters). -/
def stateChars (mapping : ℤ → List Char) (K : ℕ) (s : ℤ) : List Char :=
  (mapping s).take K ++ List.replicate (K - (mapping s).length) ' '

/-- Shallow embedding of
`AliSimulator::convertNumericalStatesIntoReadableCharacters` (part_000,
lines 1300-1323): a buffer of `sites*K` readable characters followed by a
newline. -/
def convertNumericalStatesIntoReadableCharacters (seq : List ℤ) (sites K : ℕ)
    (mapping : ℤ → List Char) : List Char :=
  ((seq.take sites).map (stateChars mapping K)).flatten ++ ['\n']

/-- One PHYLIP leaf line as written by
`writeAndDeleteSequenceImmediatelyIfPossible` (part_000, lines 982-991):
`out << pre_output << convertNumericalStatesIntoReadableCharacters(...)`. -/
def writeLeafLinePhylip (out name : List Char) (nodeId : ℤ) (M : ℕ)
    (seq : List ℤ) (sites K : ℕ) (mapping : ℤ → List Char) : List Char :=
  writeStr (writeStr out (exportPreOutputString name nodeId false M))
    (convertNumericalStatesIntoReadableCharacters seq sites K mapping)

/-- The leaf line as claim C9 words it: name LEFT-padded to the maximum
taxon-name length, then a space, then the readable sequence, then a newline. -/
def claimC9LeafLine (name : List Char) (M : ℕ) (readable : List Char) : List Char :=
  List.replicate (M - name.length) ' ' ++ name ++ [' '] ++ readable ++ ['\n']

/-- The `FunDi_Item` record: a selected site and the site whose state will
overwrite it. -/
structure FunDi_Item where
  selected_site : ℤ
  new_position : ℤ
deriving DecidableEq, Repr

/-- The inner 1000-attempt loop of the site-selection phase of
`AliSimulator::selectAndPermuteSites` (part_000, lines 1396-1410): draw
`random_int(num_sites)` (the tape value at the running cursor), retry while
the site was already selected, append it otherwise. -/
def selectOneSite (selTape : ℕ → ℕ) (selected : List ℤ) (cursor attempts : ℕ) :
    List ℤ × ℕ :=
  if attempts = 0 then (selected, cursor)
  else
    let site : ℤ := (selTape cursor : ℤ)
    if site ∈ selected then selectOneSite selTape selected (cursor + 1) (attempts - 1)
    else (selected ++ [site], cursor + 1)
termination_by attempts
decreasing_by all_goals omega

/-- The site-selection loop (part_000, lines 1393-1414): one site per
iteration, fatal (`none`) when an iteration fails to add a site. -/
def selectSitesLoop (selTape : ℕ → ℕ) (num_selected : ℕ) :
    ℕ → List ℤ → ℕ → Option (List ℤ × ℕ) := fun i selected cursor =>
  if i < num_selected then
    let res := selectOneSite selTape selected cursor 1000
    if res.1.length ≤ i then none
    else selectSitesLoop selTape num_selected (i + 1) res.1 res.2
  else some (selected, cursor)
termination_by i _ _ => num_selected - i
decreasing_by all_goals omega

/-- The inner 1000-attempt loop of the pairing phase (part_000, lines
1421-1438): draw `random_int(position_pool.size())`, read the pool at that
index, retry while it coincides with the current selected site, otherwise
erase it from the pool and return it.  The tape takes the draw's bound as a
second argument (`random_int` is called with the current pool size). -/
def pairOneSite (pairTape : ℕ → ℕ → ℕ) (pool : List ℤ) (cur : ℤ)
    (cursor attempts : ℕ) : Option (ℤ × List ℤ × ℕ) :=
  if attempts = 0 then none
  else
    let rand_num := pairTape cursor pool.length
    let np := listGetD pool (rand_num : ℤ) 0
    if np = cur then pairOneSite pairTape pool cur (cursor + 1) (attempts - 1)
    else some (np, pool.eraseIdx rand_num, cursor + 1)
termination_by attempts
decreasing_by all_goals omega

/-- The pairing loop over the first `num_selected - 1` selected sites
(part_000, lines 1417-1443). -/
def pairSitesLoop (pairTape : ℕ → ℕ → ℕ) (tmp : List ℤ) (num_selected : ℕ) :
    ℕ → List ℤ → List FunDi_Item → ℕ → Option (List FunDi_Item × List ℤ) :=
  fun i pool items cursor =>
  if i < num_selected - 1 then
    match pairOneSite pairTape pool (listGetD tmp (i : ℤ) 0) cursor 1000 with
    | none => none
    | some res =>
      pairSitesLoop pairTape tmp num_selected (i + 1) res.2.1
        (items ++ [⟨listGetD tmp (i : ℤ) 0, res.1⟩]) res.2.2
  else some (items, pool)
termination_by i _ _ _ => num_selected - 1 - i
decreasing_by all_goals omega

/-- Shallow embedding of `AliSimulator::selectAndPermuteSites` (part_000,
lines 1384-1459).  `none` models `outError` / a failed `ASSERT` / the
out-of-bounds `fundi_items[0]` access that the code performs when only one
site is selected. -/
def selectAndPermuteSites (selTape : ℕ → ℕ) (pairTape : ℕ → ℕ → ℕ)
    (proportion : ℚ) (num_sites : ℤ) : Option (List FunDi_Item) :=
  if ¬ proportion < 1 then none
  else
    let num_selected := (roundHalfFromZero (proportion * (num_sites : ℚ))).toNat
    match selectSitesLoop selTape num_selected 0 [] 0 with
    | none => none
    | some sel =>
      match pairSitesLoop pairTape sel.1 num_selected 0 sel.1 [] 0 with
      | none => none
      | some res =>
        if res.2.length = 1 then
          let lastSite := listGetD sel.1 ((sel.1.length : ℤ) - 1) 0
          let poolLast := listGetD res.2 0 0
          if ¬ lastSite = poolLast then
            some (res.1 ++ [⟨lastSite, poolLast⟩])
          else
            match res.1.head? with
            | none => none
            | some item0 =>
              some (⟨item0.selected_site, poolLast⟩ :: res.1.tail
                ++ [⟨lastSite, item0.new_position⟩])
        else none

/-- In-place row-prefix sums of a flat row-major matrix, as left by
`AliSimulator::convertProMatrixIntoAccumulatedProMatrix` (part_000, lines
1095-1103): the value at flat index `idx` is the sum of its row up to and
including its column. -/
def convertProMatrixIntoAccumulatedProMatrix (p : ℤ → ℚ) (num_columns : ℤ)
    (idx : ℤ) : ℚ :=
  ∑ j in Finset.range ((idx % num_columns).toNat + 1), p (idx - idx % num_columns + j)

/-- Shallow embedding of
`AliSimulator::simulateASequenceFromBranchAfterInitVariables` (part_000,
lines 1621-1643) for the common-model branch: the externally computed
transition matrix `P(rate*scale*length)` is the parameter `transMatrix`,
`draws i` is the `random_double()` used at site `i`. -/
def simulateASequenceFromBranchAfterInitVariables (S unk : ℤ) (transMatrix : ℤ → ℚ)
    (draws : ℕ → ℚ) (sequence_length : ℕ) (parentSeq : List ℤ) : List ℤ :=
  let acc := convertProMatrixIntoAccumulatedProMatrix transMatrix S
  (List.range sequence_length).map fun (i : ℕ) =>
    let s := listGetD parentSeq (i : ℤ) 0
    if s = unk then unk
    else getRandomItemWithAccumulatedProbMatrixMaxProbFirst acc (s * S) S s (draws i)

/-- The per-state qualifying-position count of
`AliSimulator::initVariables4RateMatrix` (`sub_rate_count`). -/
def subRateCount (unk : ℤ) (siteRates : List ℚ) (seq : List ℤ) (s : ℤ) : ℕ :=
  ((List.range seq.length).filter fun i =>
    decide (listGetD seq (i : ℤ) 0 = s ∧ ¬ listGetD seq (i : ℤ) 0 = unk
      ∧ (siteRates.length = 0 ∨ ¬ listGetD siteRates (i : ℤ) 1 = 0))).length

/-- Shallow embedding of `AliSimulator::initVariables4RateMatrix` (part_000,
lines 1816-1847): `(total_sub_rate, num_gaps, sub_rate_by_site)`.  The
`total_sub_rate != total_sub_rate` NaN reset cannot fire over `ℚ` and is the
identity here. -/
def initVariables4RateMatrix (S unk : ℤ) (subRatesVec : ℤ → ℚ) (siteRates : List ℚ)
    (seq : List ℤ) : ℚ × ℤ × List ℚ :=
  let srbs := (List.range seq.length).map fun i =>
    if ¬ listGetD seq (i : ℤ) 0 = unk
        ∧ (siteRates.length = 0 ∨ ¬ listGetD siteRates (i : ℤ) 1 = 0) then
      subRatesVec (listGetD seq (i : ℤ) 0)
    else 0
  let num_gaps := (seq.filter fun s => decide (s = unk)).length
  let total := ∑ s in Finset.range S.toNat, (subRateCount unk siteRates seq (s : ℤ) : ℚ)
    * subRatesVec (s : ℤ)
  (total, num_gaps, srbs)

/-- Shallow embedding of `AliSimulator::computeMeanDelSize` (part_000, lines
2251-2281): mean of the positive sizes among `sequence_length` draws from
the deletion distribution, cached across calls; fatal (`none`) when no draw
is positive. -/
def computeMeanDelSize (cached : Option ℚ) (delTape : ℕ → ℤ)
    (sequence_length : ℕ) : Option ℚ :=
  match cached with
  | some v => some v
  | none =>
    let sizes := ((List.range sequence_length).map delTape).filter fun x => decide (0 < x)
    if sizes.length = 0 then none
    else some ((sizes.sum : ℚ) / (sizes.length : ℚ))

/-- One iteration's worth of RNG draws for the Gillespie loop of
`handleIndels`: the exponential waiting time, the event-type draw, the tapes
consumed by `handleInsertion` / `handleDeletion`, and the draws consumed by
`handleSubs`. -/
structure GillespieDraw where
  waiting : ℚ
  evt : ℚ
  posTape : ℕ → ℕ
  insLenTape : ℕ → ℤ
  delLenTape : ℕ → ℤ
  newIntTape : ℕ → ℕ
  newQTape : ℕ → ℚ
  subPos : ℕ
  subMixR : ℚ
  subStateR : ℚ

/-- Static data for the Gillespie loop: the indel configuration plus the
indel rates, the cached mean deletion size, the `J`-matrix and mixture
weights and the substitution-level-mixture flag. -/
structure GillespieCfg where
  base : IndelCfg
  insertionRate : ℚ
  deletionRate : ℚ
  meanDelCache : Option ℚ
  deletionMeanTape : ℕ → ℤ
  Jmat : ℤ → ℚ
  mixAccWeight : ℤ → ℚ
  mixMaxPos : ℤ
  numMix : ℤ
  mixtureAtSubLevel : Bool

/-- The indel configuration for one Gillespie iteration: the base
configuration with that iteration's tapes. -/
def cfgWith (cfg : IndelCfg) (d : GillespieDraw) : IndelCfg :=
  { cfg with
      posTape := d.posTape
      lenTape := d.insLenTape
      delLenTape := d.delLenTape
      newIntTape := d.newIntTape
      newQTape := d.newQTape }

/-- Shallow embedding of `AliSimulator::handleSubs` (part_000, lines
2162-2192); the `discrete_distribution` position draw is `d.subPos`. -/
def handleSubs (g : GillespieCfg) (d : GillespieDraw) (seq : List ℤ)
    (tsr : ℚ) (srbs : List ℚ) : List ℤ × ℚ × List ℚ :=
  let S := g.base.S
  let pos : ℤ := (d.subPos : ℤ)
  let current_state := listGetD seq pos 0
  let mixture_index : ℤ :=
    if pos < (g.base.siteModelIdx.length : ℤ) then
      if g.mixtureAtSubLevel = true then
        getRandomItemWithAccumulatedProbMatrixMaxProbFirst g.mixAccWeight 0 g.numMix
          g.mixMaxPos d.subMixR
      else listGetD g.base.siteModelIdx pos 0
    else 0
  let starting_index := mixture_index * S * S + S * current_state
  let new_state := getRandomItemWithAccumulatedProbMatrixMaxProbFirst g.Jmat
    starting_index S (S / 2) d.subStateR
  let seq2 := listSet seq pos new_state
  let site_rate := if g.base.siteRates.length = 0 then 1 else listGetD g.base.siteRates pos 1
  let change := site_rate * (g.base.subRatesVec (mixture_index * S + new_state)
    - g.base.subRatesVec (mixture_index * S + current_state))
  (seq2, tsr + change, listSet srbs pos (listGetD srbs pos 0 + change))

/-- The Gillespie event loop of `AliSimulator::handleIndels` (part_000,
lines 1883-1943), driven by a finite tape of draws (an exhausted tape plays
the role of a waiting time exceeding the remaining branch length).  Carries
the remaining branch length, the node's gap counter and the total
insertion/deletion rates; returns the final state and gap counter. -/
def gillespieLoop (g : GillespieCfg) :
    List GillespieDraw → ℚ → IndelState → ℤ → ℚ → ℚ → Option (IndelState × ℤ)
  | [], _, st, ng, _, _ => some (st, ng)
  | d :: ds, bl, st, ng, tir, tdr =>
    if ¬ bl > 0 then some (st, ng)
    else if d.waiting > bl then some (st, ng)
    else
      let bl2 := bl - d.waiting
      let total_event_rate := st.totalSubRate + tir + tdr
      let eventIsIns := (tir > 0 ∨ tdr > 0) ∧ d.evt * total_event_rate < tir
      let eventIsDel := (tir > 0 ∨ tdr > 0) ∧ ¬ d.evt * total_event_rate < tir
        ∧ d.evt * total_event_rate < tir + tdr
      if eventIsIns then
        match handleInsertion (cfgWith g.base d) st with
        | none => none
        | some res =>
          gillespieLoop g ds bl2 res.1 ng (tir + g.insertionRate * res.2)
            (tdr + g.deletionRate * res.2)
      else if eventIsDel then
        match handleDeletion (cfgWith g.base d) st with
        | none => none
        | some res =>
          gillespieLoop g ds bl2 res.1 (ng + res.2) (tir - g.insertionRate * res.2)
            (tdr - g.deletionRate * res.2)
      else
        if g.base.isRM then
          let subRes := handleSubs g d st.seq st.totalSubRate st.subRateBySite
          gillespieLoop g ds bl2
            { st with
                seq := subRes.1
                totalSubRate := subRes.2.1
                subRateBySite := subRes.2.2 } ng tir tdr
        else gillespieLoop g ds bl2 st ng tir tdr

/-- Shallow embedding of `AliSimulator::handleIndels` (part_000, lines
1852-1961) restricted to the state the surrounding traversal observes (the
branch's sequence, the sequence length, the node's gap counter and the
insertion list); the post-loop genome-tree update of OTHER nodes' cached
sequences and the switching-parameter refresh do not touch this state. -/
def handleIndels (g : GillespieCfg) (draws : List GillespieDraw) (branchLenScaled : ℚ)
    (parentNumGaps : ℤ) (st : IndelState) : Option (IndelState × ℤ) :=
  let init :=
    if g.base.isRM then
      initVariables4RateMatrix g.base.S g.base.unk g.base.subRatesVec g.base.siteRates st.seq
    else (0, parentNumGaps, ([] : List ℚ))
  let st0 := { st with totalSubRate := init.1, subRateBySite := init.2.2 }
  let num_gaps := init.2.1
  if ¬ g.insertionRate + g.deletionRate = 0 then
    match computeMeanDelSize g.meanDelCache g.deletionMeanTape st.seqLen.toNat with
    | none => none
    | some meanDel =>
      let tir := g.insertionRate * ((st.seqLen : ℚ) + 1 - (num_gaps : ℚ))
      let tdr := g.deletionRate * ((st.seqLen : ℚ) - 1 - (num_gaps : ℚ) + meanDel)
      gillespieLoop g draws branchLenScaled st0 num_gaps tir tdr
  else gillespieLoop g draws branchLenScaled st0 num_gaps 0 0

/-- Shallow embedding of one edge of `AliSimulator::simulateSeqs` (part_000,
lines 878-907), restricted to the quantities the claims observe: the child
sequence, the insertion list, the sequence length and the child's gap
counter.  `branchSpecificSampler` stands for `branchSpecificEvolution`
(branch-local model construction re-enters the external model catalog). -/
def simulateEdge (g : GillespieCfg) (edgeLen branchScale simThresh : ℚ)
    (isMixture isHeterotachy : Bool) (branchModelAttrLen : ℕ)
    (transMatrix : ℤ → ℚ) (transDraws : ℕ → ℚ)
    (branchSpecificSampler : List ℤ → List ℤ)
    (gDraws : List GillespieDraw)
    (sequence_length : ℤ) (parentSeq : List ℤ) (parentNumGaps : ℤ)
    (insertions : List Insertion) : Option (List ℤ × List Insertion × ℤ × ℤ) :=
  let method := selectSimulationMethod edgeLen branchScale simThresh
    isMixture g.mixtureAtSubLevel isHeterotachy branchModelAttrLen
  if edgeLen = 0 then some (parentSeq, insertions, sequence_length, parentNumGaps)
  else
    let childSeq :=
      if method = SimMethod.TRANS_PROB_MATRIX then
        if 0 < branchModelAttrLen then branchSpecificSampler parentSeq
        else simulateASequenceFromBranchAfterInitVariables g.base.S g.base.unk
          transMatrix transDraws sequence_length.toNat parentSeq
      else parentSeq
    if ¬ g.insertionRate + g.deletionRate = 0 ∨ method = SimMethod.RATE_MATRIX then
      let g2 : GillespieCfg :=
        { g with base := { g.base with isRM := decide (method = SimMethod.RATE_MATRIX) } }
      match handleIndels g2 gDraws (edgeLen * branchScale) parentNumGaps
        { seqLen := sequence_length, seq := childSeq, totalSubRate := 0,
          subRateBySite := [], insertions := insertions } with
      | none => none
      | some res => some (res.1.seq, res.1.insertions, res.1.seqLen, res.2)
    else some (childSeq, insertions, sequence_length, parentNumGaps)

/-- The per-site mask update of `AliSimulator::createVariantStateMask` (part_000,
lines 596-615): given the current mask value `m` and the state `s` of the leaf
being scanned, the new mask value (a `-1` write is accompanied by a counter
increment, handled by `scanLeaf`). -/
def siteStep (unk m s : ℤ) : ℤ :=
  if ¬ m = -1 ∧ ¬ m = s ∧ ¬ s = unk then (if m = unk then s else -1) else m

/-- The per-leaf scan of `AliSimulator::createVariantStateMask` (part_000, lines
592-618): walks the mask and the leaf sequence in lockstep, updating the mask
per `siteStep`, incrementing the counter at each fresh `-1`, and breaking out
of the loop as soon as the counter reaches `expected` when indels are disabled.
The `[]`-mask case models an out-of-range mask access (unreachable when all
sequences share one length). -/
def scanLeaf (unk expected : ℤ) (indels : Bool) :
    List ℤ → List ℤ → ℤ → List ℤ × ℤ
  | ms, [], c => (ms, c)
  | [], _ :: _, c => ([], c)
  | m :: ms, s :: ss, c =>
    if ¬ m = -1 ∧ ¬ m = s ∧ ¬ s = unk then
      if m = unk then
        (s :: (scanLeaf unk expected indels ms ss c).1,
          (scanLeaf unk expected indels ms ss c).2)
      else
        if c + 1 ≥ expected ∧ indels = false then (-1 :: ms, c + 1)
        else (-1 :: (scanLeaf unk expected indels ms ss (c + 1)).1,
          (scanLeaf unk expected indels ms ss (c + 1)).2)
    else (m :: (scanLeaf unk expected indels ms ss c).1,
      (scanLeaf unk expected indels ms ss c).2)

/-- Shallow embedding of `AliSimulator::createVariantStateMask` (part_000, lines
578-624): the DFS over the tree is abstracted to the list of leaf sequences in
DFS visiting order (the root-named node is excluded, and internal nodes carry
no sequence processing).  The counter starts at `-1`; the first leaf
initialises the mask with its own sequence, and the entry check stops the
whole remaining traversal once the counter has reached `expected` with indels
disabled (equivalent to the per-node early `return`, which never changes the
state). -/
def createVariantStateMask (unk expected : ℤ) (indels : Bool) :
    List (List ℤ) → List ℤ → ℤ → List ℤ × ℤ
  | [], mask, c => (mask, c)
  | sq :: rest, mask, c =>
    if c ≥ expected ∧ indels = false then (mask, c)
    else if c = -1 then createVariantStateMask unk expected indels rest sq 0
    else createVariantStateMask unk expected indels rest
      (scanLeaf unk expected indels mask sq c).1
      (scanLeaf unk expected indels mask sq c).2

/-- The per-leaf compaction of `AliSimulator::getOnlyVariantSites` (part_000,
lines 502-542): collect the states at mask positions equal to `-1`, in order,
breaking as soon as `expected` states have been collected when indels are
disabled (the collected state is kept before breaking, as in the code). -/
def compactLeaf (expected : ℤ) (indels : Bool) :
    List ℤ → List ℤ → ℤ → List ℤ
  | m :: ms, s :: ss, c =>
    if m = -1 then
      if c + 1 ≥ expected ∧ indels = false then [s]
      else s :: compactLeaf expected indels ms ss (c + 1)
    else compactLeaf expected indels ms ss c
  | _, _, _ => []

/-- Shallow embedding of `AliSimulator::removeConstantSites` (part_000, lines
467-497): build the variant-state mask over the leaves, report a fatal error
(`none`) when the final counter is below `round(expected_num_sites /
length_ratio)`, and otherwise compact every leaf to its mask-marked sites. -/
def removeConstantSites (unk expected_num_sites : ℤ) (length_rho : ℚ)
    (indels : Bool) (leaves : List (List ℤ)) : Option (List (List ℤ)) :=
  let evs := roundHalfFromZero ((expected_num_sites : ℚ) / length_rho)
  let r := createVariantStateMask unk evs indels leaves [] (-1)
  if r.2 < evs then none
  else some (leaves.map fun sq => compactLeaf evs indels r.1 sq 0)

/-- The column of states at site `i` across the leaves, in DFS leaf order. -/
def colAt (leaves : List (List ℤ)) (i : ℕ) : List ℤ :=
  leaves.map fun sq => sq.getD i 0

/-- A site is variant when at least two distinct non-unknown states occur in
its column. -/
def isVariantSite (unk : ℤ) (col : List ℤ) : Prop :=
  ∃ a ∈ col, ∃ b ∈ col, ¬ a = unk ∧ ¬ b = unk ∧ ¬ a = b

instance (unk : ℤ) (col : List ℤ) : Decidable (isVariantSite unk col) :=
  List.decidableBEx _ col

/-- The variant sites among the first `n` positions, in increasing order. -/
def variantPositionList (unk : ℤ) (leaves : List (List ℤ)) (n : ℕ) : List ℕ :=
  (List.range n).filter fun i => decide (isVariantSite unk (colAt leaves i))

/-- The number of variant sites among the first `n` positions. -/
def numVariantSites (unk : ℤ) (leaves : List (List ℤ)) (n : ℕ) : ℕ :=
  (variantPositionList unk leaves n).length

/-- The compaction as claim C5 words it: every leaf keeps the positionally
first `round(expected_num_sites / length_ratio)` variant sites. -/
def claimC5Compact (unk expected_num_sites : ℤ) (length_rho : ℚ)
    (leaves : List (List ℤ)) (n : ℕ) : List (List ℤ) :=
  leaves.map fun sq =>
    ((variantPositionList unk leaves n).take
        (roundHalfFromZero ((expected_num_sites : ℚ) / length_rho)).toNat).map
      fun p => sq.getD p 0

/-- The mask value a site column folds to when every leaf is scanned without a
break: the left fold of `siteStep` over the column. -/
def foldSite (unk m : ℤ) (l : List ℤ) : ℤ :=
  l.foldl (fun a s => siteStep unk a s) m

/-- The number of `-1` entries of a mask. -/
def negCount (l : List ℤ) : ℕ :=
  (l.filter fun m => decide (m = -1)).length

/-- The positions of the `-1` entries of a mask, in increasing order. -/
def markedIdx (mask : List ℤ) : List ℕ :=
  (List.range mask.length).filter fun i => decide (mask.getD i 0 = -1)

/-- The breakless compaction: the states of a leaf at all mask-marked sites. -/
def collectMarked : List ℤ → List ℤ → List ℤ
  | m :: ms, s :: ss =>
    if m = -1 then s :: collectMarked ms ss else collectMarked ms ss
  | _, _ => []

/-- Claim C1, as frozen, is false on the code: at an edge with
`length * scale > threshold`, a mixture model, and substitution-level mixture
sampling enabled (no heterotachy, no branch-local model), the claim's
disjunction selects TRANS_PROB, but `simulateSeqs` selects RATE_MATRIX —
substitution-level mixture sampling suppresses the threshold test instead of
forcing TRANS_PROB. -/
theorem claim_C1_counterexample :
    ¬ (selectSimulationMethod 1 1 (1/2) true true false 0 = SimMethod.TRANS_PROB_MATRIX ↔
        ((1 : ℚ) * 1 > 1/2 ∨ false = true ∨ 0 < (0 : ℕ) ∨ true = true)) := by
  norm_num [selectSimulationMethod]
  decide

/-- Claim C1 (amended): TRANS_PROB is selected iff the scaled edge length
exceeds the threshold AND substitution-level mixture sampling is not in
effect (i.e. not both a mixture model and `alisim_mixture_at_sub_level`), or
the rate model is heterotachy, or a branch-local model override is attached;
otherwise RATE_MATRIX is selected. -/
theorem claim_C1 (edgeLength branchScale simThresh : ℚ)
    (isMixture mixtureAtSubLevel isHeterotachy : Bool) (branchModelAttrLen : ℕ) :
    selectSimulationMethod edgeLength branchScale simThresh
        isMixture mixtureAtSubLevel isHeterotachy branchModelAttrLen
      = SimMethod.TRANS_PROB_MATRIX
    ↔ ((edgeLength * branchScale > simThresh
          ∧ ¬(isMixture = true ∧ mixtureAtSubLevel = true))
        ∨ isHeterotachy = true
        ∨ 0 < branchModelAttrLen) := by
  unfold selectSimulationMethod
  split
  · simp_all
  · simp_all

/-- Claim C2: with +ASC and no user override, the length ratio is
`1/(1 − p_const) + 0.1` where `p_const` sums the exponentiated per-pattern
log-likelihoods of the all-constant patterns, and whenever that sum is
non-finite or greater than 1 the result is exactly `2.1`. -/
theorem claim_C2 (expPatternLlh : ℕ → ℚ) (numStates : ℕ) (sumIsFinite : Bool)
    (hfin : sumIsFinite = true)
    (hle : (∑ i in Finset.range numStates, expPatternLlh i) ≤ 1) :
    estimateLengthRho true none expPatternLlh numStates sumIsFinite
      = 1 / (1 - ∑ i in Finset.range numStates, expPatternLlh i) + 1/10
    ∧ ∀ (llh' : ℕ → ℚ) (fin' : Bool),
        (¬ fin' = true ∨ (∑ i in Finset.range numStates, llh' i) > 1) →
        estimateLengthRho true none llh' numStates fin' = 21/10 := by
  constructor
  · subst hfin
    simp only [estimateLengthRho]
    norm_num
    intro h
    linarith
  · intro llh' fin' hbad
    have hbad' : fin' = false ∨ 1 < (∑ i in Finset.range numStates, llh' i) := by
      rcases hbad with h | h
      · exact Or.inl (by simpa using h)
      · exact Or.inr h
    simp only [estimateLengthRho]
    norm_num
    rw [if_pos hbad']
    norm_num

/-- Witness for claim C2 at a concrete input: two constant patterns with
probabilities 1/4 and 1/4, so `p_const = 1/2` and the ratio is
`1/(1 − 1/2) + 0.1 = 2.1`; and a pathological run (`p_const = 3/2 > 1`)
yields exactly `2.1`. -/
theorem claim_C2_witness :
    estimateLengthRho true none (fun _ => 1/4) 2 true = 1 / (1 - (1/2 : ℚ)) + 1/10
    ∧ estimateLengthRho true none (fun _ => 3/4) 2 true = 21/10 := by
  have h := claim_C2 (fun _ => 1/4) 2 true rfl (by
    simp [Finset.sum_range_succ]
    norm_num)
  constructor
  · have h1 := h.1
    have hsum : (∑ _i in Finset.range 2, (1/4 : ℚ)) = 1/2 := by
      simp [Finset.sum_range_succ]
      norm_num
    rw [hsum] at h1
    exact h1
  · exact h.2 (fun _ => 3/4) true (by
      right
      simp [Finset.sum_range_succ]
      norm_num)

/-- Claim C6, as frozen, is false on the code: for `L = 1000` (discrete
rates, no user override) the code sets the threshold to `2.226224503 / 1000`,
not `2.226 / 1000` as the claim's constant says. -/
theorem claim_C6_counterexample :
    computeSwitchingParam none false 1000 ≠ 2.226 / 1000 := by
  norm_num [computeSwitchingParam]

/-- Unfolding lemma for `computeSwitchingParam` without a user override. -/
theorem computeSwitchingParam_none (isCont : Bool) (L : ℤ) :
    computeSwitchingParam none isCont L =
      (if isCont = true then
        (if L ≥ 1000000 then (6 : ℚ) else if L ≥ 500000 then 7
         else if L ≥ 100000 then 9.1 else 13.3073605)
      else
        (if L ≥ 1000000 then (1 : ℚ) else if L ≥ 500000 then 1.1
         else if L ≥ 100000 then 1.4 else 2.226224503)) / (L : ℚ) := by
  cases isCont <;> rfl

/-- Claim C6 (amended): without a user override the threshold is `a / L`,
with `a` piecewise-constant in `L`: for discrete rates (or no rate
heterogeneity) `a = 2.226224503` for `L < 100000`, `1.4` for
`100000 ≤ L < 500000`, `1.1` for `500000 ≤ L < 1000000`, `1` for
`L ≥ 1000000`; for continuous gamma `a = 13.3073605, 9.1, 7, 6` across the
same breakpoints (the claim's `2.226` and `13.307` round the code's
constants). -/
theorem claim_C6 (isCont : Bool) (L : ℤ) :
    (L < 100000 →
      computeSwitchingParam none isCont L
        = (if isCont = true then 13.3073605 else (2.226224503 : ℚ)) / (L : ℚ))
    ∧ (100000 ≤ L → L < 500000 →
      computeSwitchingParam none isCont L
        = (if isCont = true then 9.1 else (1.4 : ℚ)) / (L : ℚ))
    ∧ (500000 ≤ L → L < 1000000 →
      computeSwitchingParam none isCont L
        = (if isCont = true then 7 else (1.1 : ℚ)) / (L : ℚ))
    ∧ (1000000 ≤ L →
      computeSwitchingParam none isCont L
        = (if isCont = true then 6 else (1 : ℚ)) / (L : ℚ)) := by
  refine ⟨fun h1 => ?_, fun h1 h2 => ?_, fun h1 h2 => ?_, fun h1 => ?_⟩
  · have hA : ¬ L ≥ 1000000 := by omega
    have hB : ¬ L ≥ 500000 := by omega
    have hC : ¬ L ≥ 100000 := by omega
    rw [computeSwitchingParam_none]
    cases isCont <;> simp only [if_neg hA, if_neg hB, if_neg hC]
  · have hA : ¬ L ≥ 1000000 := by omega
    have hB : ¬ L ≥ 500000 := by omega
    have hC : L ≥ 100000 := h1
    rw [computeSwitchingParam_none]
    cases isCont <;> simp only [if_neg hA, if_neg hB, if_pos hC]
  · have hA : ¬ L ≥ 1000000 := by omega
    have hB : L ≥ 500000 := h1
    rw [computeSwitchingParam_none]
    cases isCont <;> simp only [if_neg hA, if_pos hB]
  · have hA : L ≥ 1000000 := h1
    rw [computeSwitchingParam_none]
    cases isCont <;> simp only [if_pos hA]

/-- Witness for claim C6 at `L = 50000`, discrete rates. -/
theorem claim_C6_witness :
    (50000 : ℤ) < 100000
    ∧ computeSwitchingParam none false 50000 = (2.226224503 : ℚ) / 50000 := by
  refine ⟨by decide, ?_⟩
  have h := (claim_C6 false 50000).1 (by decide)
  simpa using h

theorem leastIdxGE_bounds (a : ℤ → ℚ) (r : ℚ) :
    ∀ (n : ℕ) (lo hi : ℤ), (hi - lo).toNat ≤ n → lo ≤ hi →
      lo ≤ leastIdxGE a r lo hi ∧ leastIdxGE a r lo hi ≤ hi := by
  intro n
  induction n with
  | zero =>
    intro lo hi hn hlh
    rw [leastIdxGE]
    have : lo ≥ hi := by omega
    rw [if_pos this]
    omega
  | succ n ih =>
    intro lo hi hn hlh
    rw [leastIdxGE]
    by_cases h1 : lo ≥ hi
    · rw [if_pos h1]; omega
    · rw [if_neg h1]
      by_cases h2 : r ≤ a lo
      · rw [if_pos h2]; omega
      · rw [if_neg h2]
        have := ih (lo + 1) hi (by omega) (by omega)
        omega

theorem leastIdxGE_ge (a : ℤ → ℚ) (r : ℚ) :
    ∀ (n : ℕ) (lo hi : ℤ), (hi - lo).toNat ≤ n → lo ≤ hi → r ≤ a hi →
      r ≤ a (leastIdxGE a r lo hi) := by
  intro n
  induction n with
  | zero =>
    intro lo hi hn hlh hr
    rw [leastIdxGE]
    have : lo ≥ hi := by omega
    rw [if_pos this]
    exact hr
  | succ n ih =>
    intro lo hi hn hlh hr
    rw [leastIdxGE]
    by_cases h1 : lo ≥ hi
    · rw [if_pos h1]; exact hr
    · rw [if_neg h1]
      by_cases h2 : r ≤ a lo
      · rw [if_pos h2]; exact h2
      · rw [if_neg h2]
        exact ih (lo + 1) hi (by omega) (by omega) hr

theorem leastIdxGE_min (a : ℤ → ℚ) (r : ℚ) :
    ∀ (n : ℕ) (lo hi : ℤ), (hi - lo).toNat ≤ n → lo ≤ hi →
      ∀ j, lo ≤ j → j < leastIdxGE a r lo hi → a j < r := by
  intro n
  induction n with
  | zero =>
    intro lo hi hn hlh j hj1 hj2
    rw [leastIdxGE] at hj2
    have : lo ≥ hi := by omega
    rw [if_pos this] at hj2
    omega
  | succ n ih =>
    intro lo hi hn hlh j hj1 hj2
    rw [leastIdxGE] at hj2
    by_cases h1 : lo ≥ hi
    · rw [if_pos h1] at hj2; omega
    · rw [if_neg h1] at hj2
      by_cases h2 : r ≤ a lo
      · rw [if_pos h2] at hj2; omega
      · rw [if_neg h2] at hj2
        by_cases hj : j = lo
        · subst hj; exact lt_of_not_le h2
        · exact ih (lo + 1) hi (by omega) (by omega) j (by omega) hj2

theorem leastIdxGE_le_of_ge (a : ℤ → ℚ) (r : ℚ) :
    ∀ (n : ℕ) (lo hi : ℤ), (hi - lo).toNat ≤ n → lo ≤ hi →
      ∀ t, lo ≤ t → t ≤ hi → r ≤ a t → leastIdxGE a r lo hi ≤ t := by
  intro n
  induction n with
  | zero =>
    intro lo hi hn hlh t ht1 ht2 hrt
    rw [leastIdxGE]
    have : lo ≥ hi := by omega
    rw [if_pos this]
    omega
  | succ n ih =>
    intro lo hi hn hlh t ht1 ht2 hrt
    rw [leastIdxGE]
    by_cases h1 : lo ≥ hi
    · rw [if_pos h1]; omega
    · rw [if_neg h1]
      by_cases h2 : r ≤ a lo
      · rw [if_pos h2]; omega
      · rw [if_neg h2]
        have ht : t ≠ lo := by
          intro he
          subst he
          exact h2 hrt
        exact ih (lo + 1) hi (by omega) (by omega) t (by omega) ht2 hrt

/-- The binary search over a non-decreasing accumulated row finds the unique
index whose value reaches `r` while its predecessor does not. -/
theorem binarysearch_finds (a : ℤ → ℚ) (r : ℚ) (first hibound : ℤ)
    (hmono : ∀ i j : ℤ, first ≤ i → i ≤ j → j ≤ hibound → a i ≤ a j)
    (i : ℤ) (hi1 : first ≤ i) (hi2 : i ≤ hibound)
    (hri : r ≤ a i) (hprev : i = first ∨ a (i - 1) < r) :
    ∀ (n : ℕ) (lo hi : ℤ), (hi + 1 - lo).toNat ≤ n →
      first ≤ lo → hi ≤ hibound → lo ≤ i → i ≤ hi →
      binarysearchItemWithAccumulatedProbabilityMatrix a r lo hi first = i := by
  intro n
  induction n with
  | zero =>
    intro lo hi hn hlo hhi hloi hihi
    omega
  | succ n ih =>
    intro lo hi hn hlo hhi hloi hihi
    rw [binarysearchItemWithAccumulatedProbabilityMatrix]
    have hle : ¬ lo > hi := by omega
    rw [if_neg hle]
    dsimp only
    set c := (lo + hi) / 2 with hc
    have hc1 : lo ≤ c := by omega
    have hc2 : c ≤ hi := by omega
    by_cases hA : r ≤ a c ∧ (c = first ∨ a (c - 1) < r)
    · rw [if_pos hA]
      rcases hA with ⟨hA1, hA2⟩
      by_contra hne
      rcases lt_or_gt_of_ne hne with hlt | hgt
      · rcases hprev with he | hp
        · omega
        · have hmm : a c ≤ a (i - 1) := hmono c (i - 1) (by omega) (by omega) (by omega)
          linarith
      · rcases hA2 with he | hp
        · omega
        · have hmm : a i ≤ a (c - 1) := hmono i (c - 1) hi1 (by omega) (by omega)
          linarith
    · rw [if_neg hA]
      by_cases hB : r ≤ a c
      · rw [if_pos hB]
        have hcf : ¬ (c = first ∨ a (c - 1) < r) := fun h => hA ⟨hB, h⟩
        push_neg at hcf
        obtain ⟨hcf1, hcf2⟩ := hcf
        have hic : i ≤ c - 1 := by
          by_contra hic
          push_neg at hic
          rcases hprev with he | hp
          · omega
          · have hmm : a (c - 1) ≤ a (i - 1) := hmono (c - 1) (i - 1) (by omega) (by omega) (by omega)
            linarith
        exact ih lo (c - 1) (by omega) hlo (by omega) hloi hic
      · rw [if_neg hB]
        have hic : c + 1 ≤ i := by
          by_contra hic
          push_neg at hic
          have hmm : a i ≤ a c := hmono i c hi1 (by omega) (by omega)
          exact hB (le_trans hri hmm)
        exact ih (c + 1) hi (by omega) (by omega) hhi hic hihi

theorem claim_C10 (a : ℤ → ℚ) (s n m : ℤ) (r : ℚ)
    (hn : 1 ≤ n) (hm0 : 0 ≤ m) (hm1 : m ≤ n - 1)
    (hmono : ∀ i j : ℤ, s ≤ i → i ≤ j → j ≤ s + n - 1 → a i ≤ a j)
    (hr0 : 0 ≤ r) (hrlast : r ≤ a (s + n - 1))
    (hnotie : m = 0 ∨ r ≠ a (s + m - 1)) :
    getRandomItemWithAccumulatedProbMatrixMaxProbFirst a s n m r
      = binarysearchItemWithAccumulatedProbabilityMatrix a r s (s + n - 1) s - s := by
  set hi := s + n - 1 with hhi
  have hsh : s ≤ hi := by omega
  set i0 := leastIdxGE a r s hi with hi0def
  have hbnd := leastIdxGE_bounds a r (hi - s).toNat s hi le_rfl hsh
  have hri : r ≤ a i0 := leastIdxGE_ge a r (hi - s).toNat s hi le_rfl hsh hrlast
  have hmin : ∀ j, s ≤ j → j < i0 → a j < r :=
    leastIdxGE_min a r (hi - s).toNat s hi le_rfl hsh
  have hmax : ∀ t, s ≤ t → t ≤ hi → r ≤ a t → i0 ≤ t :=
    leastIdxGE_le_of_ge a r (hi - s).toNat s hi le_rfl hsh
  have hprev : i0 = s ∨ a (i0 - 1) < r := by
    by_cases h : i0 = s
    · exact Or.inl h
    · exact Or.inr (hmin (i0 - 1) (by omega) (by omega))
  have hfull : binarysearchItemWithAccumulatedProbabilityMatrix a r s hi s = i0 :=
    binarysearch_finds a r s hi hmono i0 hbnd.1 hbnd.2 hri hprev
      (hi + 1 - s).toNat s hi le_rfl le_rfl le_rfl hbnd.1 hbnd.2
  rw [hfull]
  unfold getRandomItemWithAccumulatedProbMatrixMaxProbFirst
  by_cases hm : m = 0
  · subst hm
    rw [if_pos rfl]
    rw [if_pos (by simpa using hr0)]
    by_cases hcase : r ≤ a (s + 0)
    · rw [if_pos hcase]
      have hle := hmax s le_rfl hsh (by simpa using hcase)
      omega
    · rw [if_neg hcase]
      have hi0s : s + 1 ≤ i0 := by
        by_contra h
        push_neg at h
        have he : i0 = s := by omega
        rw [he] at hri
        exact hcase (by simpa using hri)
      have e1 : s + (0 : ℤ) + 1 = s + 1 := by omega
      have e2 : s + (n - 1) = hi := by omega
      rw [e1, e2]
      have hb := binarysearch_finds a r s hi hmono i0 hbnd.1 hbnd.2 hri hprev
        (hi + 1 - (s + 1)).toNat (s + 1) hi le_rfl (by omega) le_rfl hi0s hbnd.2
      rw [hb]
  · rcases hnotie with hm0' | hne
    · exact absurd hm0' hm
    rw [if_neg hm]
    by_cases hge : r ≥ a (s + m - 1)
    · have hgt : a (s + m - 1) < r := lt_of_le_of_ne hge fun he => hne he.symm
      rw [if_pos hge]
      have hi0m : s + m ≤ i0 := by
        by_contra h
        push_neg at h
        have hmm : a i0 ≤ a (s + m - 1) := hmono i0 (s + m - 1) hbnd.1 (by omega) (by omega)
        linarith
      by_cases hc2 : r ≤ a (s + m)
      · rw [if_pos hc2]
        have hle := hmax (s + m) (by omega) (by omega) hc2
        omega
      · rw [if_neg hc2]
        have hi0m1 : s + m + 1 ≤ i0 := by
          rcases lt_or_le (s + m) i0 with h | h
          · omega
          · have he : i0 = s + m := by omega
            rw [he] at hri
            exact absurd hri hc2
        have e2 : s + (n - 1) = hi := by omega
        rw [e2]
        have hb := binarysearch_finds a r s hi hmono i0 hbnd.1 hbnd.2 hri hprev
          (hi + 1 - (s + m + 1)).toNat (s + m + 1) hi le_rfl (by omega) le_rfl hi0m1 hbnd.2
        rw [hb]
    · rw [if_neg hge]
      push_neg at hge
      have hi0le : i0 ≤ s + m - 1 := hmax (s + m - 1) (by omega) (by omega) (le_of_lt hge)
      have hb := binarysearch_finds a r s hi hmono i0 hbnd.1 hbnd.2 hri hprev
        ((s + m - 1) + 1 - s).toNat s (s + m - 1) le_rfl le_rfl (by omega) hbnd.1 hi0le
      rw [hb]

theorem claim_C10_counterexample :
    (∀ i j : ℤ, 0 ≤ i → i ≤ j → j ≤ 0 + 2 - 1 → c10Row i ≤ c10Row j)
    ∧ 0 ≤ (1/2 : ℚ) ∧ (1/2 : ℚ) ≤ c10Row (0 + 2 - 1)
    ∧ getRandomItemWithAccumulatedProbMatrixMaxProbFirst c10Row 0 2 1 (1/2) = 1
    ∧ binarysearchItemWithAccumulatedProbabilityMatrix c10Row (1/2) 0 (0 + 2 - 1) 0 - 0 = 0 := by
  refine ⟨?_, by norm_num, ?_, ?_, ?_⟩
  · intro i j h1 h2 h3
    unfold c10Row
    split_ifs <;> first | (norm_num; done) | (exfalso; omega)
  · norm_num [c10Row]
  · rw [getRandomItemWithAccumulatedProbMatrixMaxProbFirst]
    norm_num [c10Row]
  · rw [binarysearchItemWithAccumulatedProbabilityMatrix]
    norm_num [c10Row]

theorem claim_C10_witness :
    (1 : ℤ) ≤ 2 ∧ (0 : ℤ) ≤ 1 ∧ (1 : ℤ) ≤ 2 - 1
    ∧ (∀ i j : ℤ, 0 ≤ i → i ≤ j → j ≤ 0 + 2 - 1 → c10Row i ≤ c10Row j)
    ∧ 0 ≤ (3/4 : ℚ) ∧ (3/4 : ℚ) ≤ c10Row (0 + 2 - 1)
    ∧ ((1 : ℤ) = 0 ∨ (3/4 : ℚ) ≠ c10Row (0 + 1 - 1))
    ∧ getRandomItemWithAccumulatedProbMatrixMaxProbFirst c10Row 0 2 1 (3/4)
        = binarysearchItemWithAccumulatedProbabilityMatrix c10Row (3/4) 0 (0 + 2 - 1) 0 - 0 := by
  have hmono : ∀ i j : ℤ, 0 ≤ i → i ≤ j → j ≤ 0 + 2 - 1 → c10Row i ≤ c10Row j := by
    intro i j h1 h2 h3
    unfold c10Row
    split_ifs <;> first | (norm_num; done) | (exfalso; omega)
  refine ⟨by decide, by decide, by decide, hmono, by norm_num, by norm_num [c10Row], ?_, ?_⟩
  · right
    norm_num [c10Row]
  · exact claim_C10 c10Row 0 2 1 (3/4) (by decide) (by decide) (by decide) hmono
      (by norm_num) (by norm_num [c10Row]) (by right; norm_num [c10Row])

theorem generateIndelLoop_pos_of_hit (draws : ℕ → ℤ) :
    ∀ (fuel i : ℕ) (len : ℤ), 1000 - i ≤ fuel →
      (∃ j, i ≤ j ∧ j < 1000 ∧ 0 < draws j) →
      0 < generateIndelLoop draws i len := by
  intro fuel
  induction fuel with
  | zero =>
    intro i len hf hex
    omega
  | succ fuel ih =>
    intro i len hf hex
    rw [generateIndelLoop]
    by_cases h1 : i < 1000
    · rw [if_pos h1]
      by_cases h2 : 0 < draws i
      · rw [if_pos h2]; exact h2
      · rw [if_neg h2]
        refine ih (i + 1) (draws i) (by omega) ?_
        obtain ⟨j, hj1, hj2, hj3⟩ := hex
        have hij : i ≠ j := by
          intro he
          rw [he] at h2
          exact h2 hj3
        exact ⟨j, by omega, hj2, hj3⟩
    · omega

theorem generateIndelLoop_nonpos_of_miss (draws : ℕ → ℤ) :
    ∀ (fuel i : ℕ) (len : ℤ), 1000 - i ≤ fuel → len ≤ 0 →
      (∀ j, i ≤ j → j < 1000 → draws j ≤ 0) →
      generateIndelLoop draws i len ≤ 0 := by
  intro fuel
  induction fuel with
  | zero =>
    intro i len hf hlen hall
    rw [generateIndelLoop]
    rw [if_neg (by omega)]
    exact hlen
  | succ fuel ih =>
    intro i len hf hlen hall
    rw [generateIndelLoop]
    by_cases h1 : i < 1000
    · rw [if_pos h1]
      have hd := hall i le_rfl h1
      rw [if_neg (by omega)]
      exact ih (i + 1) (draws i) (by omega) hd fun j hj1 hj2 => hall j (by omega) hj2
    · rw [if_neg h1]
      exact hlen

theorem generateIndelLoop_first_hit (draws : ℕ → ℤ) :
    ∀ (fuel i : ℕ) (len : ℤ), 1000 - i ≤ fuel →
      0 < generateIndelLoop draws i len →
      len ≤ 0 →
      ∃ j, j < 1000 ∧ draws j = generateIndelLoop draws i len ∧ i ≤ j
        ∧ ∀ k, i ≤ k → k < j → draws k ≤ 0 := by
  intro fuel
  induction fuel with
  | zero =>
    intro i len hf hpos hcarry
    rw [generateIndelLoop] at hpos
    rw [if_neg (by omega)] at hpos
    exfalso
    omega
  | succ fuel ih =>
    intro i len hf hpos hcarry
    rw [generateIndelLoop] at hpos ⊢
    by_cases h1 : i < 1000
    · rw [if_pos h1] at hpos ⊢
      by_cases h2 : 0 < draws i
      · rw [if_pos h2] at hpos ⊢
        exact ⟨i, h1, rfl, le_rfl, fun k hk1 hk2 => by omega⟩
      · rw [if_neg h2] at hpos ⊢
        obtain ⟨j, hj1, hj2, hj3, hj4⟩ :=
          ih (i + 1) (draws i) (by omega) hpos (by omega)
        refine ⟨j, hj1, hj2, by omega, fun k hk1 hk2 => ?_⟩
        by_cases hk : k = i
        · subst hk; omega
        · exact hj4 k (by omega) hk2
    · rw [if_neg h1] at hpos ⊢
      exfalso
      omega

theorem scanForward_bounds (unk : ℤ) (seq : List ℤ) :
    ∀ (fuel : ℕ) (ub pos : ℤ), (ub - pos).toNat ≤ fuel →
      0 ≤ pos → pos ≤ (seq.length : ℤ) →
      0 ≤ scanForward unk seq ub pos ∧ scanForward unk seq ub pos ≤ (seq.length : ℤ) := by
  intro fuel
  induction fuel with
  | zero =>
    intro ub pos hf h0 hl
    rw [scanForward]
    by_cases h1 : pos < ub
    · exfalso; omega
    · rw [if_neg h1]; omega
  | succ fuel ih =>
    intro ub pos hf h0 hl
    rw [scanForward]
    by_cases h1 : pos < ub
    · rw [if_pos h1]
      by_cases h2 : pos = (seq.length : ℤ) ∨ ¬ listGetD seq pos 0 = unk
      · rw [if_pos h2]; omega
      · rw [if_neg h2]
        push_neg at h2
        exact ih ub (pos + 1) (by omega) (by omega) (by omega)
    · rw [if_neg h1]; omega

theorem selectValidPositionLoop_bounds (unk : ℤ) (posTape : ℕ → ℕ)
    (ub : ℤ) (seq : List ℤ)
    (htape : ∀ j, (posTape j : ℤ) < ub) (hub : ub ≤ (seq.length : ℤ) + 1) :
    ∀ (fuel i : ℕ) (pos : ℤ), (ub - (i : ℤ)).toNat ≤ fuel →
      ((i : ℤ) < ub ∨ (0 ≤ pos ∧ pos ≤ (seq.length : ℤ))) →
      0 ≤ selectValidPositionLoop unk posTape ub seq i pos
        ∧ selectValidPositionLoop unk posTape ub seq i pos ≤ (seq.length : ℤ) := by
  intro fuel
  induction fuel with
  | zero =>
    intro i pos hf hd
    rw [selectValidPositionLoop]
    by_cases h1 : (i : ℤ) < ub
    · exfalso; omega
    · rw [if_neg h1]
      rcases hd with h | h
      · exact absurd h h1
      · exact h
  | succ fuel ih =>
    intro i pos hf hd
    rw [selectValidPositionLoop]
    by_cases h1 : (i : ℤ) < ub
    · rw [if_pos h1]
      dsimp only
      have hp0 : (0 : ℤ) ≤ (posTape i : ℤ) ∧ (posTape i : ℤ) ≤ (seq.length : ℤ) := by
        have := htape i
        omega
      have hp1 : 0 ≤ (if landsOnGap unk seq (posTape i : ℤ)
            then scanForward unk seq ub (posTape i : ℤ) else (posTape i : ℤ))
          ∧ (if landsOnGap unk seq (posTape i : ℤ)
            then scanForward unk seq ub (posTape i : ℤ) else (posTape i : ℤ)) ≤ (seq.length : ℤ) := by
        by_cases hg : landsOnGap unk seq (posTape i : ℤ)
        · rw [if_pos hg]
          exact scanForward_bounds unk seq (ub - (posTape i : ℤ)).toNat ub (posTape i : ℤ)
            le_rfl hp0.1 hp0.2
        · rw [if_neg hg]
          exact hp0
      by_cases h2 : (if landsOnGap unk seq (posTape i : ℤ)
            then scanForward unk seq ub (posTape i : ℤ) else (posTape i : ℤ)) = (seq.length : ℤ)
          ∨ ¬ listGetD seq (if landsOnGap unk seq (posTape i : ℤ)
            then scanForward unk seq ub (posTape i : ℤ) else (posTape i : ℤ)) 0 = unk
      · rw [if_pos h2]
        exact hp1
      · rw [if_neg h2]
        exact ih (i + 1) _ (by omega) (Or.inr hp1)
    · rw [if_neg h1]
      rcases hd with h | h
      · exact absurd h h1
      · exact h

theorem selectValidPositionForIndels_some_bounds (unk : ℤ) (posTape : ℕ → ℕ)
    (ub : ℤ) (seq : List ℤ) (p : ℤ)
    (htape : ∀ j, (posTape j : ℤ) < ub) (hub0 : 1 ≤ ub)
    (hub : ub ≤ (seq.length : ℤ) + 1)
    (hres : selectValidPositionForIndels unk posTape ub seq = some p) :
    0 ≤ p ∧ p ≤ (seq.length : ℤ) := by
  unfold selectValidPositionForIndels at hres
  by_cases hg : landsOnGap unk seq (selectValidPositionLoop unk posTape ub seq 0 (-1))
  · rw [if_pos hg] at hres
    exact absurd hres (by simp)
  · rw [if_neg hg] at hres
    have hb := selectValidPositionLoop_bounds unk posTape ub seq htape hub
      (ub - (0 : ℤ)).toNat 0 (-1) le_rfl (Or.inl (by omega))
    simp only [Option.some.injEq] at hres
    omega

theorem drawIndelSize_none_iff (draws : ℕ → ℤ) :
    drawIndelSize draws = none ↔ ∀ i, i < 1000 → draws i ≤ 0 := by
  unfold drawIndelSize
  constructor
  · intro h i hi
    by_contra hpos
    push_neg at hpos
    have := generateIndelLoop_pos_of_hit draws 1000 0 (-1) (by omega) ⟨i, by omega, hi, hpos⟩
    rw [if_neg (by omega)] at h
    exact absurd h (by simp)
  · intro h
    have := generateIndelLoop_nonpos_of_miss draws 1000 0 (-1) (by omega) (by omega)
      (fun j _ hj => h j hj)
    rw [if_pos this]

theorem drawIndelSize_some (draws : ℕ → ℤ) (k : ℤ) (h : drawIndelSize draws = some k) :
    1 ≤ k ∧ ∃ i, i < 1000 ∧ draws i = k ∧ ∀ j, j < i → draws j ≤ 0 := by
  unfold drawIndelSize at h
  by_cases hle : generateIndelLoop draws 0 (-1) ≤ 0
  · rw [if_pos hle] at h
    exact absurd h (by simp)
  · rw [if_neg hle] at h
    simp only [Option.some.injEq] at h
    subst h
    push_neg at hle
    obtain ⟨j, hj1, hj2, _, hj4⟩ :=
      generateIndelLoop_first_hit draws 1000 0 (-1) (by omega) hle (by omega)
    exact ⟨by omega, j, hj1, hj2, fun m hm => hj4 m (by omega) hm⟩

/-- Claim C4: for insertion and deletion events the indel length is drawn by
a rejection loop of up to 1000 attempts that stops at the first strictly
positive draw; the loop fails fatally iff none of the 1000 draws is positive,
and otherwise the event proceeds with a drawn length of at least 1 (for an
insertion, exactly the drawn number of sites is spliced in). -/
theorem claim_C4 (draws : ℕ → ℤ) (cfg : IndelCfg) (st : IndelState) (p : ℤ)
    (hsel : selectValidPositionForIndels cfg.unk cfg.posTape (st.seqLen + 1) st.seq = some p) :
    (drawIndelSize draws = none ↔ ∀ i, i < 1000 → draws i ≤ 0)
    ∧ (∀ k, drawIndelSize draws = some k →
        1 ≤ k ∧ ∃ i, i < 1000 ∧ draws i = k ∧ ∀ j, j < i → draws j ≤ 0)
    ∧ (handleInsertion cfg st = none ↔ ∀ i, i < 1000 → cfg.lenTape i ≤ 0)
    ∧ (∀ st2 k, handleInsertion cfg st = some (st2, k) →
        drawIndelSize cfg.lenTape = some k ∧ 1 ≤ k ∧ st2.seqLen = st.seqLen + k)
    ∧ (drawIndelSize cfg.delLenTape = none → handleDeletion cfg st = none)
    ∧ (∀ st2 k, handleDeletion cfg st = some (st2, k) →
        ∃ kd, drawIndelSize cfg.delLenTape = some kd ∧ 1 ≤ kd) := by
  refine ⟨drawIndelSize_none_iff draws, fun k hk => drawIndelSize_some draws k hk, ?_, ?_, ?_, ?_⟩
  · unfold handleInsertion
    rw [hsel]
    cases hdraw : drawIndelSize cfg.lenTape with
    | none =>
      exact ⟨fun _ => (drawIndelSize_none_iff cfg.lenTape).mp hdraw, fun _ => rfl⟩
    | some length =>
      refine ⟨fun hfalse => ?_, fun hall => ?_⟩
      · simp at hfalse
      · have hn := (drawIndelSize_none_iff cfg.lenTape).mpr hall
        rw [hdraw] at hn
        simp at hn
  · intro st2 k hrun
    unfold handleInsertion at hrun
    rw [hsel] at hrun
    cases hdraw : drawIndelSize cfg.lenTape with
    | none =>
      rw [hdraw] at hrun
      exact absurd hrun (by simp)
    | some length =>
      rw [hdraw] at hrun
      simp only [Option.some.injEq, Prod.mk.injEq] at hrun
      obtain ⟨hst2, hk⟩ := hrun
      subst hk
      refine ⟨rfl, (drawIndelSize_some cfg.lenTape length hdraw).1, ?_⟩
      rw [← hst2]
  · intro hnone
    unfold handleDeletion
    rw [hnone]
  · intro st2 k hrun
    unfold handleDeletion at hrun
    cases hdraw : drawIndelSize cfg.delLenTape with
    | none =>
      rw [hdraw] at hrun
      exact absurd hrun (by simp)
    | some length =>
      exact ⟨length, rfl, (drawIndelSize_some cfg.delLenTape length hdraw).1⟩

/-- Claim C3: a successful `handleInsertion` appends exactly one record at
the tail of the insertion list (nothing is removed or reordered), the record
has length at least 1, its `position + length` is bounded by the sequence
length right after the event, and its appended flag is set iff the insertion
happened at the tail of the sequence. -/
theorem claim_C3 (cfg : IndelCfg) (st st2 : IndelState) (k : ℤ)
    (hlen : (st.seq.length : ℤ) = st.seqLen)
    (htape : ∀ i, (cfg.posTape i : ℤ) < st.seqLen + 1)
    (hrun : handleInsertion cfg st = some (st2, k)) :
    ∃ rec : Insertion,
      st2.insertions = st.insertions ++ [rec]
      ∧ 1 ≤ rec.length
      ∧ rec.position + rec.length ≤ st2.seqLen
      ∧ (rec.appended_flag = true ↔ rec.position = st.seqLen)
      ∧ st2.seqLen = st.seqLen + rec.length := by
  unfold handleInsertion at hrun
  cases hpos : selectValidPositionForIndels cfg.unk cfg.posTape (st.seqLen + 1) st.seq with
  | none =>
    rw [hpos] at hrun
    exact absurd hrun (by simp)
  | some position =>
    rw [hpos] at hrun
    cases hdraw : drawIndelSize cfg.lenTape with
    | none =>
      rw [hdraw] at hrun
      exact absurd hrun (by simp)
    | some length =>
      rw [hdraw] at hrun
      simp only [Option.some.injEq, Prod.mk.injEq] at hrun
      obtain ⟨hst2, hk⟩ := hrun
      have hposb := selectValidPositionForIndels_some_bounds cfg.unk cfg.posTape
        (st.seqLen + 1) st.seq position htape (by omega) (by omega) hpos
      have hlen1 : 1 ≤ length := (drawIndelSize_some cfg.lenTape length hdraw).1
      refine ⟨⟨position, length, decide (position = st.seqLen)⟩, ?_, hlen1, ?_, ?_, ?_⟩
      · rw [← hst2]
      · rw [← hst2]
        simp only
        omega
      · simp only [decide_eq_true_eq]
      · rw [← hst2]

theorem c3_hsel : selectValidPositionForIndels c3Cfg.unk c3Cfg.posTape
    (c3St.seqLen + 1) c3St.seq = some 0 := by
  rw [selectValidPositionForIndels]
  rw [selectValidPositionLoop]
  norm_num [c3Cfg, c3St, landsOnGap, listGetD]

theorem c3_hdraw : drawIndelSize c3Cfg.lenTape = some 2 := by
  rw [drawIndelSize]
  rw [generateIndelLoop]
  norm_num [c3Cfg]

theorem c3_hrun : handleInsertion c3Cfg c3St = some (c3St2, 2) := by
  unfold handleInsertion
  rw [c3_hsel, c3_hdraw]
  norm_num [generateRandomSequence, c3Cfg, insertNewSequenceForInsertionEvent, c3St, c3St2]
  decide

/-- Witness for claim C3 at the concrete insertion of `c3Cfg` / `c3St`. -/
theorem claim_C3_witness :
    ((c3St.seq.length : ℤ) = c3St.seqLen)
    ∧ (∀ i, (c3Cfg.posTape i : ℤ) < c3St.seqLen + 1)
    ∧ handleInsertion c3Cfg c3St = some (c3St2, 2)
    ∧ ∃ rec : Insertion,
        c3St2.insertions = c3St.insertions ++ [rec]
        ∧ 1 ≤ rec.length
        ∧ rec.position + rec.length ≤ c3St2.seqLen
        ∧ (rec.appended_flag = true ↔ rec.position = c3St.seqLen)
        ∧ c3St2.seqLen = c3St.seqLen + rec.length := by
  refine ⟨by decide, fun i => by norm_num [c3Cfg, c3St], c3_hrun, ?_⟩
  exact claim_C3 c3Cfg c3St c3St2 2 (by decide) (fun i => by norm_num [c3Cfg, c3St]) c3_hrun

/-- Witness for claim C4 at the concrete tapes of `c3Cfg` / `c3St`. -/
theorem claim_C4_witness :
    selectValidPositionForIndels c3Cfg.unk c3Cfg.posTape (c3St.seqLen + 1) c3St.seq = some 0
    ∧ ((drawIndelSize (fun _ => 2) = none ↔ ∀ i, i < 1000 → (2 : ℤ) ≤ 0)
      ∧ (∀ k, drawIndelSize (fun _ => 2) = some k →
          1 ≤ k ∧ ∃ i, i < 1000 ∧ (2 : ℤ) = k ∧ ∀ j, j < i → (2 : ℤ) ≤ 0)
      ∧ (handleInsertion c3Cfg c3St = none ↔ ∀ i, i < 1000 → c3Cfg.lenTape i ≤ 0)
      ∧ (∀ st2 k, handleInsertion c3Cfg c3St = some (st2, k) →
          drawIndelSize c3Cfg.lenTape = some k ∧ 1 ≤ k ∧ st2.seqLen = c3St.seqLen + k)
      ∧ (drawIndelSize c3Cfg.delLenTape = none → handleDeletion c3Cfg c3St = none)
      ∧ (∀ st2 k, handleDeletion c3Cfg c3St = some (st2, k) →
          ∃ kd, drawIndelSize c3Cfg.delLenTape = some kd ∧ 1 ≤ kd)) := by
  exact ⟨c3_hsel, claim_C4 (fun _ => 2) c3Cfg c3St 0 c3_hsel⟩

/-- Claim C9, as frozen, is false on the code: with taxon name `ab`, padding
width 4 and one-site readable sequence `A`, the code writes `ab  A\n`
(name left-justified, right-padded, no separating space column), not
`  ab A\n` as the claim's left-padding plus space would give. -/
theorem claim_C9_counterexample :
    writeLeafLinePhylip [] (String.toList "ab") 0 4 [0] 1 1 (fun _ => [Char.ofNat 65])
      ≠ claimC9LeafLine (String.toList "ab") 4 [Char.ofNat 65] := by
  decide

/-- Claim C9 (amended): the first line is the number of leaves, a space, the
output sequence length and a newline; every leaf line is the taxon name
RIGHT-padded with spaces to the maximum taxon-name length (so a separating
space appears exactly when the name is shorter than that width), followed
directly by the readable sequence and a newline. -/
theorem claim_C9 (out : List Char) (num_leaves output_len : ℤ) (name : List Char)
    (nodeId : ℤ) (M : ℕ) (seq : List ℤ) (sites K : ℕ) (mapping : ℤ → List Char)
    (hname : name ≠ []) (hM : name.length ≤ M) :
    phylipFirstLineWrite out num_leaves output_len
      = out ++ num_leaves.repr.toList ++ [' '] ++ output_len.repr.toList ++ ['\n']
    ∧ writeLeafLinePhylip out name nodeId M seq sites K mapping
      = out ++ name ++ List.replicate (M - name.length) ' '
          ++ ((seq.take sites).map (stateChars mapping K)).flatten ++ ['\n']
    ∧ (name.length < M →
        writeLeafLinePhylip out name nodeId M seq sites K mapping
          = out ++ name ++ [' '] ++ List.replicate (M - name.length - 1) ' '
            ++ ((seq.take sites).map (stateChars mapping K)).flatten ++ ['\n']) := by
  have hpre : exportPreOutputString name nodeId false M
      = name ++ List.replicate (M - name.length) ' ' := by
    have hnz : ¬ name.length = 0 := by
      intro h
      exact hname (List.eq_nil_of_length_eq_zero h)
    unfold exportPreOutputString
    norm_num [hnz, List.take_of_length_le hM]
  refine ⟨?_, ?_, ?_⟩
  · unfold phylipFirstLineWrite writeStr
    simp [List.append_assoc]
  · unfold writeLeafLinePhylip writeStr convertNumericalStatesIntoReadableCharacters
    rw [hpre]
    simp [List.append_assoc]
  · intro hlt
    unfold writeLeafLinePhylip writeStr convertNumericalStatesIntoReadableCharacters
    rw [hpre]
    have hrep : List.replicate (M - name.length) ' '
        = ' ' :: List.replicate (M - name.length - 1) ' ' := by
      have h1 : M - name.length = (M - name.length - 1) + 1 := by omega
      conv_lhs => rw [h1]
      rw [List.replicate_succ]
    rw [hrep]
    simp [List.append_assoc]

/-- Witness for claim C9: name `ab`, width 4, sequence `A`. -/
theorem claim_C9_witness :
    String.toList "ab" ≠ [] ∧ (String.toList "ab").length ≤ 4
    ∧ writeLeafLinePhylip [] (String.toList "ab") 0 4 [0] 1 1 (fun _ => [Char.ofNat 65])
      = [] ++ String.toList "ab" ++ List.replicate (4 - (String.toList "ab").length) ' '
        ++ (([(0 : ℤ)].take 1).map (stateChars (fun _ => [Char.ofNat 65]) 1)).flatten ++ ['\n'] := by
  refine ⟨by decide, by decide, ?_⟩
  exact (claim_C9 [] 0 0 (String.toList "ab") 0 4 [0] 1 1 (fun _ => [Char.ofNat 65])
    (by decide) (by decide)).2.1

theorem listGetD_natCast {α : Type} (l : List α) (idx : ℕ) (d : α) :
    listGetD l (idx : ℤ) d = l.getD idx d := by
  unfold listGetD
  by_cases h : idx < l.length
  · rw [if_pos (by omega)]
    simp
  · rw [if_neg (by omega)]
    rw [List.getD_eq_default]
    omega

theorem perm_getD_cons_eraseIdx {α : Type} [Inhabited α] (d : α) :
    ∀ (l : List α) (idx : ℕ), idx < l.length →
      l.Perm (l.getD idx d :: l.eraseIdx idx) := by
  intro l
  induction l with
  | nil =>
    intro idx h
    simp at h
  | cons a t ih =>
    intro idx h
    cases idx with
    | zero =>
      simp [List.getD]
    | succ n =>
      have hn : n < t.length := by simpa using h
      have ht := ih n hn
      have h1 : (a :: t).Perm (a :: (t.getD n d :: t.eraseIdx n)) := ht.cons a
      have h2 : (a :: t.getD n d :: t.eraseIdx n).Perm (t.getD n d :: a :: t.eraseIdx n) :=
        List.Perm.swap _ _ _
      have h3 := h1.trans h2
      simpa using h3

theorem selectOneSite_cases (selTape : ℕ → ℕ) :
    ∀ (attempts : ℕ) (selected : List ℤ) (cursor : ℕ),
      (selectOneSite selTape selected cursor attempts).1 = selected
      ∨ ∃ site, site ∉ selected
          ∧ (selectOneSite selTape selected cursor attempts).1 = selected ++ [site] := by
  intro attempts
  induction attempts with
  | zero =>
    intro selected cursor
    rw [selectOneSite]
    simp
  | succ att ih =>
    intro selected cursor
    rw [selectOneSite]
    rw [if_neg (by omega)]
    dsimp only
    by_cases hmem : (selTape cursor : ℤ) ∈ selected
    · rw [if_pos hmem]
      have := ih selected (cursor + 1)
      simpa using this
    · rw [if_neg hmem]
      exact Or.inr ⟨(selTape cursor : ℤ), hmem, rfl⟩

theorem selectSitesLoop_some (selTape : ℕ → ℕ) (num_selected : ℕ) :
    ∀ (fuel i : ℕ) (selected : List ℤ) (cursor : ℕ) (tmp : List ℤ) (c : ℕ),
      num_selected - i ≤ fuel → i ≤ num_selected → selected.length = i → selected.Nodup →
      selectSitesLoop selTape num_selected i selected cursor = some (tmp, c) →
      tmp.length = num_selected ∧ tmp.Nodup := by
  intro fuel
  induction fuel with
  | zero =>
    intro i selected cursor tmp c hf hile hlen hnd hrun
    rw [selectSitesLoop] at hrun
    by_cases h1 : i < num_selected
    · exfalso; omega
    · rw [if_neg h1] at hrun
      simp only [Option.some.injEq, Prod.mk.injEq] at hrun
      obtain ⟨h2, h3⟩ := hrun
      constructor
      · rw [← h2]; omega
      · rw [← h2]; exact hnd
  | succ fuel ih =>
    intro i selected cursor tmp c hf hile hlen hnd hrun
    rw [selectSitesLoop] at hrun
    by_cases h1 : i < num_selected
    · rw [if_pos h1] at hrun
      dsimp only at hrun
      rcases selectOneSite_cases selTape 1000 selected cursor with hcase | ⟨site, hmem, hcase⟩
      · rw [if_pos (by rw [hcase]; omega)] at hrun
        exact absurd hrun (by simp)
      · rw [if_neg (by rw [hcase]; simp; omega)] at hrun
        have hnd2 : ((selectOneSite selTape selected cursor 1000).1).Nodup := by
          rw [hcase]
          simp [List.nodup_append, hnd, hmem]
        have hlen2 : ((selectOneSite selTape selected cursor 1000).1).length = i + 1 := by
          rw [hcase]
          simp [hlen]
        exact ih (i + 1) _ _ tmp c (by omega) (by omega) hlen2 hnd2 hrun
    · rw [if_neg h1] at hrun
      simp only [Option.some.injEq, Prod.mk.injEq] at hrun
      obtain ⟨h2, h3⟩ := hrun
      constructor
      · rw [← h2]; omega
      · rw [← h2]; exact hnd

theorem pairOneSite_some (pairTape : ℕ → ℕ → ℕ) (pool : List ℤ) (cur : ℤ)
    (htape : ∀ j n, 0 < n → pairTape j n < n) (hpool : 0 < pool.length) :
    ∀ (attempts cursor : ℕ) (np : ℤ) (pool2 : List ℤ) (c2 : ℕ),
      pairOneSite pairTape pool cur cursor attempts = some (np, pool2, c2) →
      np ≠ cur ∧ pool.Perm (np :: pool2) := by
  intro attempts
  induction attempts with
  | zero =>
    intro cursor np pool2 c2 hrun
    rw [pairOneSite] at hrun
    rw [if_pos rfl] at hrun
    exact absurd hrun (by simp)
  | succ att ih =>
    intro cursor np pool2 c2 hrun
    rw [pairOneSite] at hrun
    rw [if_neg (by omega)] at hrun
    dsimp only at hrun
    by_cases heq : listGetD pool (pairTape cursor pool.length : ℤ) 0 = cur
    · rw [if_pos heq] at hrun
      exact ih (cursor + 1) np pool2 c2 hrun
    · rw [if_neg heq] at hrun
      simp only [Option.some.injEq, Prod.mk.injEq] at hrun
      obtain ⟨hnp, hpool2, _⟩ := hrun
      have hidx : pairTape cursor pool.length < pool.length := htape cursor pool.length hpool
      have hg := listGetD_natCast pool (pairTape cursor pool.length) (0 : ℤ)
      refine ⟨by rw [← hnp]; exact heq, ?_⟩
      rw [← hnp, ← hpool2, hg]
      exact perm_getD_cons_eraseIdx 0 pool _ hidx

theorem pairSitesLoop_invariant (pairTape : ℕ → ℕ → ℕ) (tmp : List ℤ)
    (num_selected : ℕ) (htape : ∀ j n, 0 < n → pairTape j n < n)
    (htmp : tmp.length = num_selected) :
    ∀ (fuel i : ℕ) (pool : List ℤ) (items : List FunDi_Item) (cursor : ℕ)
      (items2 : List FunDi_Item) (pool2 : List ℤ),
      num_selected - 1 - i ≤ fuel → i ≤ num_selected - 1 →
      (pool ++ items.map FunDi_Item.new_position).Perm tmp →
      items.map FunDi_Item.selected_site = tmp.take i →
      items.length = i →
      (∀ it ∈ items, it.new_position ∈ tmp ∧ it.new_position ≠ it.selected_site) →
      pairSitesLoop pairTape tmp num_selected i pool items cursor = some (items2, pool2) →
      (pool2 ++ items2.map FunDi_Item.new_position).Perm tmp
      ∧ items2.map FunDi_Item.selected_site = tmp.take (num_selected - 1)
      ∧ items2.length = num_selected - 1
      ∧ (∀ it ∈ items2, it.new_position ∈ tmp ∧ it.new_position ≠ it.selected_site) := by
  intro fuel
  induction fuel with
  | zero =>
    intro i pool items cursor items2 pool2 hf hile hperm hss hilen hprop hrun
    rw [pairSitesLoop] at hrun
    by_cases h1 : i < num_selected - 1
    · exfalso; omega
    · rw [if_neg h1] at hrun
      simp only [Option.some.injEq, Prod.mk.injEq] at hrun
      obtain ⟨h2, h3⟩ := hrun
      have hieq : i = num_selected - 1 := by omega
      subst hieq
      rw [← h2, ← h3]
      exact ⟨hperm, hss, hilen, hprop⟩
  | succ fuel ih =>
    intro i pool items cursor items2 pool2 hf hile hperm hss hilen hprop hrun
    rw [pairSitesLoop] at hrun
    by_cases h1 : i < num_selected - 1
    · rw [if_pos h1] at hrun
      have hpoollen : pool.length = num_selected - i := by
        have hle := hperm.length_eq
        simp only [List.length_append, List.length_map] at hle
        omega
      have hpool0 : 0 < pool.length := by omega
      cases hpair : pairOneSite pairTape pool (listGetD tmp (i : ℤ) 0) cursor 1000 with
      | none =>
        rw [hpair] at hrun
        exact absurd hrun (by simp)
      | some res =>
        rw [hpair] at hrun
        obtain ⟨hne, hpm⟩ := pairOneSite_some pairTape pool (listGetD tmp (i : ℤ) 0)
          htape hpool0 1000 cursor res.1 res.2.1 res.2.2 (by rw [hpair])
        have hnp_mem : res.1 ∈ tmp := by
          refine hperm.mem_iff.mp ?_
          have hin : res.1 ∈ pool := hpm.mem_iff.mpr (by simp)
          simp [hin]
        have hperm2 : (res.2.1 ++ (items
              ++ [FunDi_Item.mk (listGetD tmp (i : ℤ) 0) res.1]).map
            FunDi_Item.new_position).Perm tmp := by
          simp only [List.map_append, List.map_cons, List.map_nil]
          have e1 : (res.2.1 ++ (items.map FunDi_Item.new_position ++ [res.1])).Perm
              (res.2.1 ++ ([res.1] ++ items.map FunDi_Item.new_position)) :=
            List.Perm.append_left _ List.perm_append_comm
          have e2 : res.2.1 ++ ([res.1] ++ items.map FunDi_Item.new_position)
              = (res.2.1 ++ [res.1]) ++ items.map FunDi_Item.new_position := by
            rw [List.append_assoc]
          have e3 : ((res.2.1 ++ [res.1]) ++ items.map FunDi_Item.new_position).Perm
              ((res.1 :: res.2.1) ++ items.map FunDi_Item.new_position) :=
            List.Perm.append_right _ List.perm_append_comm
          have e23 : (res.2.1 ++ ([res.1] ++ items.map FunDi_Item.new_position)).Perm
              ((res.1 :: res.2.1) ++ items.map FunDi_Item.new_position) := by
            rw [e2]; exact e3
          have e4 : ((res.1 :: res.2.1) ++ items.map FunDi_Item.new_position).Perm
              (pool ++ items.map FunDi_Item.new_position) :=
            List.Perm.append_right _ hpm.symm
          exact (((e1.trans e23).trans e4).trans hperm)
        have hss2 : ((items ++ [FunDi_Item.mk (listGetD tmp (i : ℤ) 0) res.1]).map
            FunDi_Item.selected_site) = tmp.take (i + 1) := by
          simp only [List.map_append, List.map_cons, List.map_nil, hss]
          rw [List.take_succ]
          congr 1
          have hi : i < tmp.length := by omega
          rw [listGetD_natCast]
          simp [List.getD, List.getElem?_eq_getElem hi]
        have hprop2 : ∀ it ∈ items ++ [FunDi_Item.mk (listGetD tmp (i : ℤ) 0) res.1],
            it.new_position ∈ tmp ∧ it.new_position ≠ it.selected_site := by
          intro it hit
          rw [List.mem_append] at hit
          rcases hit with h | h
          · exact hprop it h
          · simp only [List.mem_singleton] at h
            subst h
            exact ⟨hnp_mem, hne⟩
        exact ih (i + 1) res.2.1 _ res.2.2 items2 pool2 (by omega) (by omega)
          hperm2 hss2 (by simp [hilen]) hprop2 hrun
    · rw [if_neg h1] at hrun
      simp only [Option.some.injEq, Prod.mk.injEq] at hrun
      obtain ⟨h2, h3⟩ := hrun
      have hieq : i = num_selected - 1 := by omega
      subst hieq
      rw [← h2, ← h3]
      exact ⟨hperm, hss, hilen, hprop⟩

theorem take_concat_getD (l : List ℤ) (n : ℕ) (h : l.length = n + 1) :
    l.take n ++ [l.getD n 0] = l := by
  have h1 := List.take_succ (l := l) (n := n)
  have h2 : l.take (n + 1) = l := List.take_of_length_le (by omega)
  have h3 : l[n]? = some l[n] := List.getElem?_eq_getElem (by omega)
  rw [h2, h3] at h1
  simp only [Option.toList_some] at h1
  have h4 : l.getD n 0 = l[n] := List.getD_eq_getElem l 0 (by omega)
  rw [h4]
  exact h1.symm

theorem nodup_getD_ne (l : List ℤ) (hnd : l.Nodup) (i j : ℕ)
    (hi : i < l.length) (hj : j < l.length) (hij : i ≠ j) :
    l.getD i 0 ≠ l.getD j 0 := by
  intro he
  rw [List.getD_eq_getElem l 0 hi, List.getD_eq_getElem l 0 hj] at he
  exact hij (List.Nodup.getElem_inj_iff hnd |>.mp he)

theorem getD_zero_take (l : List ℤ) (k : ℕ) (hk : 1 ≤ k) :
    (l.take k).getD 0 0 = l.getD 0 0 := by
  cases l with
  | nil => simp
  | cons a t =>
    cases k with
    | zero => omega
    | succ k => simp [List.getD]

/-- Claim C8 (amended): on success, `selectAndPermuteSites(f, L)` selects
exactly `round(f*L)` distinct sites (the code rounds; the claim says
`⌈f·L⌉`), and returns one pairing item per selected site, in selection
order, whose `new_position` is itself a selected site different from that
item's `selected_site`. -/
theorem claim_C8 (selTape : ℕ → ℕ) (pairTape : ℕ → ℕ → ℕ)
    (proportion : ℚ) (num_sites : ℤ) (items : List FunDi_Item)
    (htape : ∀ j n, 0 < n → pairTape j n < n)
    (hrun : selectAndPermuteSites selTape pairTape proportion num_sites = some items) :
    ∃ selected : List ℤ,
      selected.Nodup
      ∧ (selected.length : ℤ) = roundHalfFromZero (proportion * (num_sites : ℚ))
      ∧ items.map FunDi_Item.selected_site = selected
      ∧ ∀ it ∈ items, it.new_position ∈ selected ∧ it.new_position ≠ it.selected_site := by
  unfold selectAndPermuteSites at hrun
  by_cases hprop1 : proportion < 1
  swap
  · rw [if_pos hprop1] at hrun
    exact absurd hrun (by simp)
  rw [if_neg (not_not_intro hprop1)] at hrun
  set nsel := (roundHalfFromZero (proportion * (num_sites : ℚ))).toNat with hnsel
  dsimp only at hrun
  split at hrun
  · exact absurd hrun (by simp)
  rename_i sel hselrun
  obtain ⟨htmplen, htmpnd⟩ := selectSitesLoop_some selTape nsel nsel 0 [] 0 sel.1 sel.2
    (by omega) (by omega) rfl (by simp) (by rw [hselrun])
  split at hrun
  · exact absurd hrun (by simp)
  rename_i res hpairrun
  obtain ⟨hperm, hss, hilen, hprops⟩ := pairSitesLoop_invariant pairTape sel.1 nsel htape
    htmplen nsel 0 sel.1 [] 0 res.1 res.2 (by omega) (by omega) (by simp)
    (by simp) rfl (by simp) (by rw [hpairrun])
  split at hrun
  swap
  · exact absurd hrun (by simp)
  rename_i hpl
  have hnsel1 : 1 ≤ nsel := by
    have hle := hperm.length_eq
    simp only [List.length_append, List.length_map] at hle
    omega
  have hlast : listGetD sel.1 ((sel.1.length : ℤ) - 1) 0 = sel.1.getD (nsel - 1) 0 := by
    have he : ((sel.1.length : ℤ) - 1) = ((nsel - 1 : ℕ) : ℤ) := by omega
    rw [he, listGetD_natCast]
  obtain ⟨p, hp⟩ := List.length_eq_one.mp hpl
  have hpool0 : listGetD res.2 0 0 = p := by
    rw [hp]
    rfl
  have hpmem : p ∈ sel.1 := by
    refine hperm.mem_iff.mp ?_
    rw [hp]
    simp
  have htake : sel.1.take (nsel - 1) ++ [sel.1.getD (nsel - 1) 0] = sel.1 :=
    take_concat_getD sel.1 (nsel - 1) (by omega)
  split at hrun
  · rename_i hswap
    simp only [Option.some.injEq] at hrun
    refine ⟨sel.1, htmpnd, by rw [htmplen]; omega, ?_, ?_⟩
    · rw [← hrun]
      simp only [List.map_append, List.map_cons, List.map_nil, hss]
      rw [hlast]
      exact htake
    · intro it hit
      rw [← hrun] at hit
      rw [List.mem_append] at hit
      rcases hit with h | h
      · exact hprops it h
      · simp only [List.mem_singleton] at h
        subst h
        simp only
        rw [hpool0]
        exact ⟨hpmem, fun he => hswap (he.symm.trans hpool0.symm)⟩
  rename_i hswap
  have heq : listGetD sel.1 ((sel.1.length : ℤ) - 1) 0 = listGetD res.2 0 0 :=
    not_not.mp hswap
  have hlastp : sel.1.getD (nsel - 1) 0 = p := by
    rw [← hlast, heq, hpool0]
  split at hrun
  · exact absurd hrun (by simp)
  rename_i item0 hhead
  simp only [Option.some.injEq] at hrun
  have hcons : res.1 = item0 :: res.1.tail := by
    cases hres1 : res.1 with
    | nil =>
      rw [hres1] at hhead
      simp at hhead
    | cons a tl =>
      rw [hres1] at hhead
      simp only [List.head?_cons, Option.some.injEq] at hhead
      rw [← hhead]
      simp
  have hnsel2 : 2 ≤ nsel := by
    have h1 : 1 ≤ res.1.length := by
      rw [hcons]
      simp
    omega
  have hitem0mem : item0 ∈ res.1 := by
    rw [hcons]
    simp
  have hitem0ss : item0.selected_site = sel.1.getD 0 0 := by
    have h0 := congrArg (fun l => l.getD 0 0) hss
    rw [hcons] at h0
    simp only [List.map_cons, List.getD_cons_zero] at h0
    rw [getD_zero_take sel.1 (nsel - 1) (by omega)] at h0
    exact h0
  have hnodup2 : (res.2 ++ res.1.map FunDi_Item.new_position).Nodup :=
    hperm.nodup_iff.mpr htmpnd
  have hpnotin : p ∉ res.1.map FunDi_Item.new_position := by
    rw [hp] at hnodup2
    simp only [List.singleton_append, List.nodup_cons] at hnodup2
    exact hnodup2.1
  have hnp0in : item0.new_position ∈ res.1.map FunDi_Item.new_position := by
    rw [hcons]
    simp
  refine ⟨sel.1, htmpnd, by rw [htmplen]; omega, ?_, ?_⟩
  · rw [← hrun]
    simp only [List.cons_append, List.map_cons, List.map_append, List.map_nil]
    have hsstail : item0.selected_site :: (res.1.tail.map FunDi_Item.selected_site)
        = sel.1.take (nsel - 1) := by
      rw [← hss, hcons]
      simp
    rw [← List.cons_append, hsstail, hlast]
    exact htake
  · intro it hit
    rw [← hrun] at hit
    simp only [List.cons_append, List.mem_cons, List.mem_append,
      List.mem_singleton, List.mem_nil_iff, or_false] at hit
    rcases hit with h | h | h
    · subst h
      simp only
      rw [hpool0, hitem0ss, ← hlastp]
      refine ⟨by rw [hlastp]; exact hpmem, ?_⟩
      exact nodup_getD_ne sel.1 htmpnd (nsel - 1) 0 (by omega) (by omega) (by omega)
    · have hintl : it ∈ res.1 := by
        rw [hcons]
        exact List.mem_cons_of_mem _ h
      exact hprops it hintl
    · subst h
      simp only
      constructor
      · exact (hprops item0 hitem0mem).1
      · rw [hlast, hlastp]
        intro he
        exact hpnotin (he ▸ hnp0in)

theorem c8_round : roundHalfFromZero ((1/5 : ℚ) * (11 : ℤ)) = 2 := by
  norm_num [roundHalfFromZero]

theorem c8_sel1 : selectOneSite (fun c => c) [] 0 1000 = ([0], 1) := by
  rw [selectOneSite]
  norm_num

theorem c8_sel2 : selectOneSite (fun c => c) [0] 1 1000 = ([0, 1], 2) := by
  rw [selectOneSite]
  norm_num

theorem c8_selloop : selectSitesLoop (fun c => c) 2 0 [] 0 = some ([0, 1], 2) := by
  rw [selectSitesLoop]
  norm_num [c8_sel1]
  rw [selectSitesLoop]
  norm_num [c8_sel2]
  rw [selectSitesLoop]
  norm_num

theorem c8_pair1 :
    pairOneSite (fun _ n => if n = 2 then 1 else 0) [0, 1] 0 0 1000 = some (1, [0], 1) := by
  rw [pairOneSite]
  norm_num [listGetD, List.eraseIdx]

theorem c8_pairloop :
    pairSitesLoop (fun _ n => if n = 2 then 1 else 0) [0, 1] 2 0 [0, 1] [] 0
      = some ([⟨0, 1⟩], [0]) := by
  rw [pairSitesLoop]
  norm_num [listGetD, c8_pair1]
  rw [pairSitesLoop]
  norm_num

/-- Claim C8, as frozen, is false on the code: with `f = 1/5` and `L = 11`
the claim's `⌈f·L⌉ = 3`, but the code selects `round(f·L) = 2` sites and
returns 2 pairing items. -/
theorem claim_C8_counterexample :
    selectAndPermuteSites (fun c => c) (fun _ n => if n = 2 then 1 else 0) (1/5) 11
      = some [⟨0, 1⟩, ⟨1, 0⟩]
    ∧ ([(⟨0, 1⟩ : FunDi_Item), ⟨1, 0⟩].length = 2)
    ∧ ⌈(1/5 : ℚ) * (11 : ℤ)⌉ = 3 := by
  refine ⟨?_, by decide, by rw [Int.ceil_eq_iff] <;> norm_num⟩
  unfold selectAndPermuteSites
  rw [if_neg (by norm_num)]
  rw [show ((roundHalfFromZero ((1/5 : ℚ) * ((11 : ℤ) : ℚ))).toNat) = 2 by
    rw [show ((1/5 : ℚ) * ((11 : ℤ) : ℚ)) = (1/5 : ℚ) * (11 : ℤ) by norm_num, c8_round]
    decide]
  dsimp only
  simp only [c8_selloop]
  simp only [c8_pairloop]
  norm_num [listGetD]

theorem c8_tape_valid : ∀ (j n : ℕ), 0 < n → (fun (_ : ℕ) (n : ℕ) => if n = 2 then 1 else 0) j n < n := by
  intro j n hn
  by_cases h : n = 2
  · subst h
    norm_num
  · simp only [if_neg h]
    omega

/-- Witness for claim C8 at the concrete run of `claim_C8_counterexample`. -/
theorem claim_C8_witness :
    (∀ j n, 0 < n → (fun (_ : ℕ) (n : ℕ) => if n = 2 then 1 else 0) j n < n)
    ∧ selectAndPermuteSites (fun c => c) (fun _ n => if n = 2 then 1 else 0) (1/5) 11
        = some [⟨0, 1⟩, ⟨1, 0⟩]
    ∧ ∃ selected : List ℤ,
        selected.Nodup
        ∧ (selected.length : ℤ) = roundHalfFromZero ((1/5 : ℚ) * ((11 : ℤ) : ℚ))
        ∧ [(⟨0, 1⟩ : FunDi_Item), ⟨1, 0⟩].map FunDi_Item.selected_site = selected
        ∧ ∀ it ∈ [(⟨0, 1⟩ : FunDi_Item), ⟨1, 0⟩],
            it.new_position ∈ selected ∧ it.new_position ≠ it.selected_site := by
  refine ⟨c8_tape_valid, claim_C8_counterexample.1, ?_⟩
  exact claim_C8 (fun c => c) (fun _ n => if n = 2 then 1 else 0) (1/5) 11
    [⟨0, 1⟩, ⟨1, 0⟩] c8_tape_valid claim_C8_counterexample.1

/-- Claim C7: on a zero-length edge the branch simulation copies the parent
sequence to the child unchanged — no substitution, insertion or deletion is
applied (the insertion list, the sequence length and the gap counter are
untouched). -/
theorem claim_C7 (g : GillespieCfg) (edgeLen branchScale simThresh : ℚ)
    (isMixture isHeterotachy : Bool) (branchModelAttrLen : ℕ)
    (transMatrix : ℤ → ℚ) (transDraws : ℕ → ℚ)
    (branchSpecificSampler : List ℤ → List ℤ) (gDraws : List GillespieDraw)
    (sequence_length : ℤ) (parentSeq : List ℤ) (parentNumGaps : ℤ)
    (insertions : List Insertion)
    (hzero : edgeLen = 0) :
    simulateEdge g edgeLen branchScale simThresh isMixture isHeterotachy
      branchModelAttrLen transMatrix transDraws branchSpecificSampler gDraws
      sequence_length parentSeq parentNumGaps insertions
      = some (parentSeq, insertions, sequence_length, parentNumGaps) := by
  unfold simulateEdge
  rw [if_pos hzero]

/-- Witness for claim C7: a concrete zero-length edge over `c3Cfg`. -/
theorem claim_C7_witness :
    (0 : ℚ) = 0
    ∧ simulateEdge
        { base := c3Cfg, insertionRate := 1/10, deletionRate := 0, meanDelCache := some 1,
          deletionMeanTape := fun _ => 1, Jmat := fun _ => 0, mixAccWeight := fun _ => 0,
          mixMaxPos := 0, numMix := 1, mixtureAtSubLevel := false }
        0 1 (1/2) false false 0 (fun _ => 0) (fun _ => 0) id [] 2 [0, 1] 0 []
      = some ([0, 1], [], 2, 0) := by
  refine ⟨rfl, ?_⟩
  exact claim_C7 _ 0 1 (1/2) false false 0 (fun _ => 0) (fun _ => 0) id [] 2 [0, 1] 0 [] rfl

theorem siteStep_self (unk m : ℤ) : siteStep unk m m = m := by
  simp [siteStep]

theorem siteStep_neg (unk s : ℤ) : siteStep unk (-1) s = -1 := by
  simp [siteStep]

theorem foldSite_nil (unk m : ℤ) : foldSite unk m [] = m := rfl

theorem foldSite_cons (unk m s : ℤ) (l : List ℤ) :
    foldSite unk m (s :: l) = foldSite unk (siteStep unk m s) l := rfl

theorem foldSite_append (unk m : ℤ) (l1 l2 : List ℤ) :
    foldSite unk m (l1 ++ l2) = foldSite unk (foldSite unk m l1) l2 := by
  simp [foldSite, List.foldl_append]

theorem foldSite_neg (unk : ℤ) (l : List ℤ) : foldSite unk (-1) l = -1 := by
  induction l with
  | nil => rfl
  | cons s t ih => rw [foldSite_cons, siteStep_neg]; exact ih

theorem negCount_nil : negCount [] = 0 := rfl

theorem negCount_cons (m : ℤ) (l : List ℤ) :
    negCount (m :: l) = (if m = -1 then 1 else 0) + negCount l := by
  by_cases h : m = -1 <;> simp [negCount, List.filter_cons, h] <;> omega

theorem negCount_eq_zero (l : List ℤ) (h : ∀ s ∈ l, ¬ s = -1) :
    negCount l = 0 := by
  induction l with
  | nil => rfl
  | cons s t ih =>
    rw [negCount_cons, if_neg (h s (List.mem_cons_self s t)), Nat.zero_add]
    exact ih fun x hx => h x (List.mem_cons_of_mem s hx)

theorem getD_nonneg (l : List ℤ) (h : ∀ s ∈ l, 0 ≤ s) (i : ℕ) :
    0 ≤ l.getD i 0 := by
  rcases Nat.lt_or_ge i l.length with hi | hi
  · rw [List.getD_eq_getElem l 0 hi]
    exact h _ (List.getElem_mem hi)
  · rw [List.getD_eq_default l 0 hi]

theorem roundHalfFromZero_nonneg (x : ℚ) (h : 0 ≤ x) :
    0 ≤ roundHalfFromZero x := by
  unfold roundHalfFromZero
  rw [if_pos h]
  exact Int.floor_nonneg.mpr (by linarith)

theorem foldSite_from_state (unk m : ℤ) (l : List ℤ) (hm1 : ¬ m = -1)
    (hmu : ¬ m = unk) :
    foldSite unk m l = -1 ↔ ∃ s ∈ l, ¬ s = unk ∧ ¬ s = m := by
  induction l with
  | nil => simp [foldSite_nil, hm1]
  | cons s t ih =>
    rw [foldSite_cons]
    by_cases hsu : s = unk
    · have hstep : siteStep unk m s = m := by
        simp [siteStep, hsu]
      rw [hstep, ih]
      constructor
      · rintro ⟨x, hx, h1, h2⟩
        exact ⟨x, List.mem_cons_of_mem s hx, h1, h2⟩
      · rintro ⟨x, hx, h1, h2⟩
        rcases List.mem_cons.mp hx with h | h
        · exact absurd (h.trans hsu) h1
        · exact ⟨x, h, h1, h2⟩
    · by_cases hsm : s = m
      · have hstep : siteStep unk m s = m := by
        -- reached only when s = m
          rw [hsm, siteStep_self]
        rw [hstep, ih]
        constructor
        · rintro ⟨x, hx, h1, h2⟩
          exact ⟨x, List.mem_cons_of_mem s hx, h1, h2⟩
        · rintro ⟨x, hx, h1, h2⟩
          rcases List.mem_cons.mp hx with h | h
          · exact absurd (h.trans hsm) h2
          · exact ⟨x, h, h1, h2⟩
      · have hstep : siteStep unk m s = -1 := by
          have hc : ¬ m = -1 ∧ ¬ m = s ∧ ¬ s = unk :=
            ⟨hm1, fun h => hsm h.symm, hsu⟩
          simp only [siteStep]
          rw [if_pos hc, if_neg hmu]
        rw [hstep, foldSite_neg]
        constructor
        · intro _
          exact ⟨s, List.mem_cons_self s t, hsu, hsm⟩
        · intro _
          rfl

theorem foldSite_from_unk (unk : ℤ) (hu : ¬ unk = -1) :
    ∀ l : List ℤ, (∀ s ∈ l, ¬ s = -1) →
      (foldSite unk unk l = -1 ↔
        ∃ a ∈ l, ∃ b ∈ l, ¬ a = unk ∧ ¬ b = unk ∧ ¬ a = b) := by
  intro l
  induction l with
  | nil =>
    intro _
    simp [foldSite_nil, hu]
  | cons s t ih =>
    intro hl
    rw [foldSite_cons]
    by_cases hsu : s = unk
    · have hstep : siteStep unk unk s = unk := by
        simp [siteStep, hsu]
      rw [hstep, ih fun x hx => hl x (List.mem_cons_of_mem s hx)]
      constructor
      · rintro ⟨a, ha, b, hb, h1, h2, h3⟩
        exact ⟨a, List.mem_cons_of_mem s ha, b, List.mem_cons_of_mem s hb,
          h1, h2, h3⟩
      · rintro ⟨a, ha, b, hb, h1, h2, h3⟩
        rcases List.mem_cons.mp ha with h | h
        · exact absurd (h.trans hsu) h1
        rcases List.mem_cons.mp hb with h' | h'
        · exact absurd (h'.trans hsu) h2
        exact ⟨a, h, b, h', h1, h2, h3⟩
    · have hstep : siteStep unk unk s = s := by
        have hc : ¬ unk = -1 ∧ ¬ unk = s ∧ ¬ s = unk :=
          ⟨hu, fun h => hsu h.symm, hsu⟩
        simp only [siteStep]
        rw [if_pos hc]
        simp
      rw [hstep,
        foldSite_from_state unk s t (hl s (List.mem_cons_self s t)) hsu]
      constructor
      · rintro ⟨x, hx, hxu, hxs⟩
        exact ⟨s, List.mem_cons_self s t, x, List.mem_cons_of_mem s hx,
          hsu, hxu, fun h => hxs h.symm⟩
      · rintro ⟨a, ha, b, hb, hau, hbu, hab⟩
        rcases List.mem_cons.mp ha with h | h
        · rcases List.mem_cons.mp hb with h' | h'
          · exact absurd (h.trans h'.symm) hab
          · exact ⟨b, h', hbu, fun hbs => hab (h.trans hbs.symm)⟩
        · rcases List.mem_cons.mp hb with h' | h'
          · exact ⟨a, h, hau, fun has => hab (has.trans h'.symm)⟩
          · by_cases has : a = s
            · exact ⟨b, h', hbu, fun hbs => hab (has.trans hbs.symm)⟩
            · exact ⟨a, h, hau, has⟩

theorem foldSite_col_iff (unk m : ℤ) (l : List ℤ) (hu : ¬ unk = -1)
    (hm : ¬ m = -1) (hl : ∀ s ∈ l, ¬ s = -1) :
    foldSite unk m l = -1 ↔ isVariantSite unk (m :: l) := by
  by_cases hmu : m = unk
  · subst hmu
    rw [foldSite_from_unk m hm l hl]
    unfold isVariantSite
    constructor
    · rintro ⟨a, ha, b, hb, h1, h2, h3⟩
      exact ⟨a, List.mem_cons_of_mem m ha, b, List.mem_cons_of_mem m hb,
        h1, h2, h3⟩
    · rintro ⟨a, ha, b, hb, h1, h2, h3⟩
      rcases List.mem_cons.mp ha with h | h
      · exact absurd h h1
      rcases List.mem_cons.mp hb with h' | h'
      · exact absurd h' h2
      exact ⟨a, h, b, h', h1, h2, h3⟩
  · rw [foldSite_from_state unk m l hm hmu]
    unfold isVariantSite
    constructor
    · rintro ⟨x, hx, h1, h2⟩
      exact ⟨m, List.mem_cons_self m l, x, List.mem_cons_of_mem m hx,
        hmu, h1, fun h => h2 h.symm⟩
    · rintro ⟨a, ha, b, hb, h1, h2, h3⟩
      rcases List.mem_cons.mp ha with h | h
      · rcases List.mem_cons.mp hb with h' | h'
        · exact absurd (h.trans h'.symm) h3
        · exact ⟨b, h', h2, fun hbm => h3 (h.trans hbm.symm)⟩
      · rcases List.mem_cons.mp hb with h' | h'
        · exact ⟨a, h, h1, fun ham => h3 (ham.trans h'.symm)⟩
        · by_cases ham : a = m
          · exact ⟨b, h', h2, fun hbm => h3 (ham.trans hbm.symm)⟩
          · exact ⟨a, h, h1, ham⟩

theorem scanLeaf_len (unk expected : ℤ) (indels : Bool) :
    ∀ (ss ms : List ℤ) (c : ℤ),
      (scanLeaf unk expected indels ms ss c).1.length = ms.length := by
  intro ss
  induction ss with
  | nil =>
    intro ms c
    cases ms <;> simp [scanLeaf]
  | cons s ss ih =>
    intro ms c
    cases ms with
    | nil => simp [scanLeaf]
    | cons m ms =>
      simp only [scanLeaf]
      split_ifs <;> simp [ih]

theorem scanLeaf_counter_le (unk expected : ℤ) :
    ∀ (ss ms : List ℤ) (c : ℤ), c < expected →
      (scanLeaf unk expected false ms ss c).2 ≤ expected := by
  intro ss
  induction ss with
  | nil =>
    intro ms c hc
    cases ms <;> simp [scanLeaf] <;> omega
  | cons s ss ih =>
    intro ms c hc
    cases ms with
    | nil =>
      simp [scanLeaf]
      omega
    | cons m ms =>
      simp only [scanLeaf]
      split_ifs with h1 h2 h3
      · exact ih ms c hc
      · omega
      · exact ih ms (c + 1) (by
          rcases not_and_or.mp h3 with h | h
          · omega
          · exact absurd trivial h)
      · exact ih ms c hc

theorem scanLeaf_negCount (unk expected : ℤ) :
    ∀ (ss ms : List ℤ) (c : ℤ), (∀ s ∈ ss, ¬ s = -1) →
      (scanLeaf unk expected false ms ss c).2
        = c + ((negCount (scanLeaf unk expected false ms ss c).1 : ℤ)
            - (negCount ms : ℤ)) := by
  intro ss
  induction ss with
  | nil =>
    intro ms c _
    cases ms <;> simp [scanLeaf]
  | cons s ss ih =>
    intro ms c hss
    have hs1 : ¬ s = -1 := hss s (List.mem_cons_self s ss)
    have hss' : ∀ x ∈ ss, ¬ x = -1 := fun x hx => hss x (List.mem_cons_of_mem s hx)
    cases ms with
    | nil => simp [scanLeaf]
    | cons m ms =>
      simp only [scanLeaf]
      split_ifs with h1 h2 h3
      · have := ih ms c hss'
        rw [negCount_cons, negCount_cons, if_neg hs1, if_neg h1.1]
        omega
      · rw [negCount_cons, negCount_cons, if_pos rfl, if_neg h1.1]
        omega
      · have := ih ms (c + 1) hss'
        rw [negCount_cons, negCount_cons, if_pos rfl, if_neg h1.1]
        omega
      · have := ih ms c hss'
        by_cases hm : m = -1
        · rw [negCount_cons, negCount_cons, if_pos hm]
          omega
        · rw [negCount_cons, negCount_cons, if_neg hm]
          omega

theorem scanLeaf_nobreak (unk expected : ℤ) :
    ∀ (ss ms : List ℤ) (c : ℤ), ms.length = ss.length →
      (scanLeaf unk expected false ms ss c).2 < expected →
      (scanLeaf unk expected false ms ss c).1
        = List.zipWith (fun a b => siteStep unk a b) ms ss := by
  intro ss
  induction ss with
  | nil =>
    intro ms c hlen _
    rw [List.length_nil] at hlen
    rw [List.length_eq_zero] at hlen
    subst hlen
    simp [scanLeaf]
  | cons s ss ih =>
    intro ms c hlen hres
    cases ms with
    | nil => simp at hlen
    | cons m ms =>
      simp only [List.length_cons, Nat.succ_inj] at hlen
      simp only [scanLeaf] at hres ⊢
      split_ifs with h1 h2 h3
      · rw [List.zipWith_cons_cons]
        have hstep : siteStep unk m s = s := by
          simp only [siteStep]
          rw [if_pos h1, if_pos h2]
        rw [hstep]
        rw [if_pos h1, if_pos h2] at hres
        exact congrArg (s :: ·) (ih ms c hlen hres)
      · rw [if_pos h1, if_neg h2, if_pos h3] at hres
        simp only at hres
        exact absurd hres (by omega)
      · rw [List.zipWith_cons_cons]
        have hstep : siteStep unk m s = -1 := by
          simp only [siteStep]
          rw [if_pos h1, if_neg h2]
        rw [hstep]
        rw [if_pos h1, if_neg h2, if_neg h3] at hres
        simp only at hres
        exact congrArg ((-1) :: ·) (ih ms (c + 1) hlen hres)
      · rw [List.zipWith_cons_cons]
        have hstep : siteStep unk m s = m := by
          simp only [siteStep]
          rw [if_neg h1]
        rw [hstep]
        rw [if_neg h1] at hres
        exact congrArg (m :: ·) (ih ms c hlen hres)

theorem scanLeaf_getD_or (unk expected : ℤ) :
    ∀ (ss ms : List ℤ) (c : ℤ) (i : ℕ) (d : ℤ),
      (scanLeaf unk expected false ms ss c).1.getD i d = ms.getD i d
      ∨ (scanLeaf unk expected false ms ss c).1.getD i d
          = siteStep unk (ms.getD i d) (ss.getD i d) := by
  intro ss
  induction ss with
  | nil =>
    intro ms c i d
    cases ms <;> exact Or.inl rfl
  | cons s ss ih =>
    intro ms c i d
    cases ms with
    | nil => exact Or.inl rfl
    | cons m ms =>
      simp only [scanLeaf]
      split_ifs with h1 h2 h3
      · cases i with
        | zero =>
          right
          have hstep : siteStep unk m s = s := by
            simp only [siteStep]
            rw [if_pos h1, if_pos h2]
          simp [hstep]
        | succ i =>
          simp only [List.getD_cons_succ]
          exact ih ms c i d
      · cases i with
        | zero =>
          right
          have hstep : siteStep unk m s = -1 := by
            simp only [siteStep]
            rw [if_pos h1, if_neg h2]
          simp [hstep]
        | succ i =>
          left
          simp [List.getD_cons_succ]
      · cases i with
        | zero =>
          right
          have hstep : siteStep unk m s = -1 := by
            simp only [siteStep]
            rw [if_pos h1, if_neg h2]
          simp [hstep]
        | succ i =>
          simp only [List.getD_cons_succ]
          exact ih ms (c + 1) i d
      · cases i with
        | zero => exact Or.inl (by simp)
        | succ i =>
          simp only [List.getD_cons_succ]
          exact ih ms c i d

theorem zipWith_siteStep_getD (unk : ℤ) :
    ∀ (ms ss : List ℤ), ms.length = ss.length → ∀ i : ℕ,
      (List.zipWith (fun a b => siteStep unk a b) ms ss).getD i 0
        = siteStep unk (ms.getD i 0) (ss.getD i 0) := by
  intro ms
  induction ms with
  | nil =>
    intro ss hlen i
    rw [List.length_nil] at hlen
    have hnil : ss = [] := List.length_eq_zero.mp hlen.symm
    subst hnil
    simp [siteStep_self]
  | cons m ms ih =>
    intro ss hlen i
    cases ss with
    | nil => simp at hlen
    | cons s ss =>
      simp only [List.length_cons, Nat.succ_inj] at hlen
      cases i with
      | zero => simp
      | succ i =>
        simp only [List.zipWith_cons_cons, List.getD_cons_succ]
        exact ih ss hlen i

theorem maskFold_skip (unk expected : ℤ) (l : List (List ℤ)) (mask : List ℤ)
    (c : ℤ) (h : c ≥ expected) :
    createVariantStateMask unk expected false l mask c = (mask, c) := by
  cases l with
  | nil => rfl
  | cons sq rest =>
    simp only [createVariantStateMask]
    rw [if_pos ⟨h, trivial⟩]

theorem maskFoldA (unk expected : ℤ) (n : ℕ) (first : List ℤ)
    (rest : List (List ℤ))
    (hrl : ∀ sq ∈ rest, sq.length = n)
    (hrv : ∀ sq ∈ rest, ∀ s ∈ sq, ¬ s = -1) :
    ∀ (rest1 done : List (List ℤ)), rest = done ++ rest1 →
    ∀ (mask : List ℤ) (c : ℤ),
      mask.length = n →
      (∀ i : ℕ, mask.getD i 0
          = foldSite unk (first.getD i 0) (done.map fun sq => sq.getD i 0)) →
      c = (negCount mask : ℤ) →
      c ≤ expected →
      ((createVariantStateMask unk expected false rest1 mask c).1.length = n
      ∧ (createVariantStateMask unk expected false rest1 mask c).2
          = (negCount (createVariantStateMask unk expected false rest1 mask c).1 : ℤ)
      ∧ (createVariantStateMask unk expected false rest1 mask c).2 ≤ expected
      ∧ (((createVariantStateMask unk expected false rest1 mask c).2 < expected
            ∧ ∀ i : ℕ,
                (createVariantStateMask unk expected false rest1 mask c).1.getD i 0
                  = foldSite unk (first.getD i 0) (rest.map fun sq => sq.getD i 0))
         ∨ ((createVariantStateMask unk expected false rest1 mask c).2 = expected
            ∧ ∀ i : ℕ,
                (createVariantStateMask unk expected false rest1 mask c).1.getD i 0 = -1
                → foldSite unk (first.getD i 0) (rest.map fun sq => sq.getD i 0)
                    = -1))) := by
  intro rest1
  induction rest1 with
  | nil =>
    intro done hsplit mask c hlen hmask hc hle
    simp only [createVariantStateMask]
    refine ⟨hlen, hc, hle, ?_⟩
    have hdone : rest = done := by rw [hsplit, List.append_nil]
    rcases lt_or_eq_of_le hle with h | h
    · refine Or.inl ⟨h, fun i => ?_⟩
      rw [hdone]
      exact hmask i
    · refine Or.inr ⟨h, fun i hneg => ?_⟩
      rw [hdone]
      rw [hmask i] at hneg
      exact hneg
  | cons sq rest2 ih =>
    intro done hsplit mask c hlen hmask hc hle
    have hsqmem : sq ∈ rest := by
      rw [hsplit]
      exact List.mem_append_right done (List.mem_cons_self sq rest2)
    have hsqlen : sq.length = n := hrl sq hsqmem
    have hsqv : ∀ s ∈ sq, ¬ s = -1 := hrv sq hsqmem
    have hsplit2 : rest = (done ++ [sq]) ++ rest2 := by
      rw [hsplit, List.append_assoc, List.singleton_append]
    simp only [createVariantStateMask]
    by_cases hce : c ≥ expected
    · rw [if_pos ⟨hce, trivial⟩]
      have hceq : c = expected := le_antisymm hle hce
      refine ⟨hlen, hc, hle, Or.inr ⟨hceq, ?_⟩⟩
      intro i hneg
      rw [hmask i] at hneg
      rw [hsplit, List.map_append, foldSite_append, hneg, foldSite_neg]
    · rw [if_neg (fun h => hce h.1)]
      have hc0 : ¬ c = -1 := by
        have h0 : (0:ℤ) ≤ (negCount mask : ℤ) := Int.natCast_nonneg _
        omega
      rw [if_neg hc0]
      have hclt : c < expected := lt_of_not_ge hce
      have hlen1 : (scanLeaf unk expected false mask sq c).1.length = n := by
        rw [scanLeaf_len unk expected false sq mask c, hlen]
      have hnc1 : (scanLeaf unk expected false mask sq c).2
          = (negCount (scanLeaf unk expected false mask sq c).1 : ℤ) := by
        have h := scanLeaf_negCount unk expected sq mask c hsqv
        omega
      have hle1 : (scanLeaf unk expected false mask sq c).2 ≤ expected :=
        scanLeaf_counter_le unk expected sq mask c hclt
      by_cases hb : (scanLeaf unk expected false mask sq c).2 < expected
      · have hzip := scanLeaf_nobreak unk expected sq mask c (by rw [hlen, hsqlen]) hb
        have hmask2 : ∀ i : ℕ, (scanLeaf unk expected false mask sq c).1.getD i 0
            = foldSite unk (first.getD i 0)
                ((done ++ [sq]).map fun sq => sq.getD i 0) := by
          intro i
          rw [hzip, zipWith_siteStep_getD unk mask sq (by rw [hlen, hsqlen]) i,
            hmask i, List.map_append, foldSite_append]
          rfl
        exact ih (done ++ [sq]) hsplit2 (scanLeaf unk expected false mask sq c).1
          (scanLeaf unk expected false mask sq c).2 hlen1 hmask2 hnc1 hle1
      · have hbe : (scanLeaf unk expected false mask sq c).2 = expected :=
          le_antisymm hle1 (not_lt.mp hb)
        rw [maskFold_skip unk expected rest2 _ _ (ge_of_eq hbe)]
        refine ⟨hlen1, hnc1, hle1, Or.inr ⟨hbe, ?_⟩⟩
        intro i hneg
        rcases scanLeaf_getD_or unk expected sq mask c i 0 with h | h
        · rw [h, hmask i] at hneg
          rw [hsplit, List.map_append, foldSite_append, hneg, foldSite_neg]
        · rw [h, hmask i] at hneg
          rw [hsplit2, List.map_append, foldSite_append, List.map_append,
            foldSite_append]
          have hsingle : foldSite unk
              (foldSite unk (first.getD i 0) (done.map fun sq => sq.getD i 0))
              ([sq].map fun sq => sq.getD i 0)
              = siteStep unk
                (foldSite unk (first.getD i 0) (done.map fun sq => sq.getD i 0))
                (sq.getD i 0) := rfl
          rw [hsingle, hneg, foldSite_neg]

theorem markedIdx_cons (m : ℤ) (ms : List ℤ) :
    markedIdx (m :: ms)
      = (if m = -1 then [0] else []) ++ (markedIdx ms).map fun p => p + 1 := by
  unfold markedIdx
  rw [List.length_cons, List.range_succ_eq_map, List.filter_cons]
  have hpred : ((fun i => decide ((m :: ms).getD i 0 = -1)) ∘ Nat.succ)
      = fun i => decide (ms.getD i 0 = -1) := by
    funext i
    simp [Function.comp, List.getD_cons_succ]
  rw [List.filter_map, hpred]
  by_cases hm : m = -1
  · simp [hm]
  · simp [hm]

theorem markedIdx_length (l : List ℤ) : (markedIdx l).length = negCount l := by
  induction l with
  | nil => rfl
  | cons m ms ih =>
    rw [markedIdx_cons, List.length_append, List.length_map, ih, negCount_cons]
    by_cases hm : m = -1 <;> simp [hm]

theorem markedIdx_mem (l : List ℤ) (p : ℕ) :
    p ∈ markedIdx l ↔ p < l.length ∧ l.getD p 0 = -1 := by
  unfold markedIdx
  simp [List.mem_filter, List.mem_range]

theorem markedIdx_sorted (l : List ℤ) :
    (markedIdx l).Pairwise (fun a b => a < b) := by
  unfold markedIdx
  exact (List.pairwise_lt_range _).filter _

theorem collectMarked_nil_of_negCount (ms : List ℤ) :
    ∀ ss : List ℤ, negCount ms = 0 → collectMarked ms ss = [] := by
  induction ms with
  | nil =>
    intro ss _
    cases ss <;> rfl
  | cons m ms ih =>
    intro ss h
    rw [negCount_cons] at h
    cases ss with
    | nil => rfl
    | cons s ss =>
      by_cases hm : m = -1
      · rw [if_pos hm] at h
        omega
      · rw [if_neg hm] at h
        simp only [collectMarked]
        rw [if_neg hm]
        exact ih ss (by omega)

theorem compactLeaf_eq_collect (expected : ℤ) :
    ∀ ms ss : List ℤ, ∀ c : ℤ, (negCount ms : ℤ) ≤ expected - c →
      compactLeaf expected false ms ss c = collectMarked ms ss := by
  intro ms
  induction ms with
  | nil =>
    intro ss c _
    cases ss <;> rfl
  | cons m ms ih =>
    intro ss c h
    cases ss with
    | nil => rfl
    | cons s ss =>
      simp only [compactLeaf, collectMarked]
      split_ifs with hm hbr
      · rw [negCount_cons, if_pos hm] at h
        have h0 : negCount ms = 0 := by omega
        rw [collectMarked_nil_of_negCount ms ss h0]
      · rw [negCount_cons, if_pos hm] at h
        have hlt : c + 1 < expected := by
          by_contra hc2
          exact hbr ⟨by omega, by simp⟩
        exact congrArg (s :: ·) (ih ss (c + 1) (by omega))
      · rw [negCount_cons, if_neg hm] at h
        exact ih ss c (by omega)

theorem length_filter_le_of_imp {α : Type} (l : List α) (p q : α → Bool)
    (h : ∀ a ∈ l, p a = true → q a = true) :
    (l.filter p).length ≤ (l.filter q).length := by
  induction l with
  | nil => simp
  | cons a l ih =>
    have ih2 := ih fun x hx => h x (List.mem_cons_of_mem a hx)
    rw [List.filter_cons, List.filter_cons]
    by_cases hp : p a = true
    · rw [if_pos hp, if_pos (h a (List.mem_cons_self a l) hp)]
      simpa using ih2
    · rw [if_neg hp]
      by_cases hq : q a = true
      · rw [if_pos hq]
        simp only [List.length_cons]
        omega
      · rw [if_neg hq]
        exact ih2

theorem collectMarked_eq_map :
    ∀ ms ss : List ℤ, ms.length = ss.length →
      collectMarked ms ss = (markedIdx ms).map fun p => ss.getD p 0 := by
  intro ms
  induction ms with
  | nil =>
    intro ss _
    cases ss <;> rfl
  | cons m ms ih =>
    intro ss hlen
    cases ss with
    | nil => simp at hlen
    | cons s ss =>
      simp only [List.length_cons, Nat.succ_inj] at hlen
      rw [markedIdx_cons]
      simp only [collectMarked]
      rw [List.map_append, List.map_map]
      have hcomp : ((fun p => (s :: ss).getD p 0) ∘ fun p => p + 1)
          = fun p => ss.getD p 0 := by
        funext p
        simp [Function.comp, List.getD_cons_succ]
      rw [hcomp, ← ih ss hlen]
      by_cases hm : m = -1
      · rw [if_pos hm, if_pos hm]
        rfl
      · rw [if_neg hm, if_neg hm]
        rfl

theorem maskFold_start (unk expected : ℤ) (hexp : 0 ≤ expected)
    (first : List ℤ) (rest : List (List ℤ)) :
    createVariantStateMask unk expected false (first :: rest) [] (-1)
      = createVariantStateMask unk expected false rest first 0 := by
  simp only [createVariantStateMask]
  rw [if_neg (fun h => absurd h.1 (by omega : ¬ (-1:ℤ) ≥ expected))]
  simp

theorem variantMask_core (unk E : ℤ) (n : ℕ) (first : List ℤ)
    (rest : List (List ℤ)) (hu : 0 ≤ unk) (hexp : 0 ≤ E)
    (hfl : first.length = n) (hrl : ∀ sq ∈ rest, sq.length = n)
    (hval : ∀ sq ∈ first :: rest, ∀ s ∈ sq, 0 ≤ s) :
    ((createVariantStateMask unk E false (first :: rest) [] (-1)).2 < E
      ↔ (numVariantSites unk (first :: rest) n : ℤ) < E)
    ∧ (¬ (createVariantStateMask unk E false (first :: rest) [] (-1)).2 < E →
        ∃ pos : List ℕ, pos.Pairwise (fun a b => a < b)
          ∧ (pos.length : ℤ) = E
          ∧ (∀ p ∈ pos, p < n ∧ isVariantSite unk (colAt (first :: rest) p))
          ∧ ((first :: rest).map fun sq =>
              compactLeaf E false
                (createVariantStateMask unk E false (first :: rest) [] (-1)).1
                sq 0)
            = (first :: rest).map fun sq => pos.map fun p => sq.getD p 0) := by
  have hvne : ∀ sq ∈ first :: rest, ∀ s ∈ sq, ¬ s = -1 := by
    intro sq hsq s hs
    have := hval sq hsq s hs
    omega
  have hrv : ∀ sq ∈ rest, ∀ s ∈ sq, ¬ s = -1 :=
    fun sq hsq => hvne sq (List.mem_cons_of_mem first hsq)
  have hfv : ∀ s ∈ first, ¬ s = -1 := hvne first (List.mem_cons_self first rest)
  have hgetD : ∀ sq ∈ first :: rest, ∀ i : ℕ, ¬ sq.getD i 0 = -1 := by
    intro sq hsq i
    have := getD_nonneg sq (hval sq hsq) i
    omega
  have hiff : ∀ i : ℕ,
      (foldSite unk (first.getD i 0) (rest.map fun sq => sq.getD i 0) = -1)
        ↔ isVariantSite unk (colAt (first :: rest) i) := by
    intro i
    have hcol : colAt (first :: rest) i
        = first.getD i 0 :: (rest.map fun sq => sq.getD i 0) := rfl
    rw [hcol]
    exact foldSite_col_iff unk (first.getD i 0) _ (by omega)
      (hgetD first (List.mem_cons_self first rest) i)
      (fun s hs => by
        rcases List.mem_map.mp hs with ⟨sq, hsq, hrfl⟩
        rw [← hrfl]
        exact hgetD sq (List.mem_cons_of_mem first hsq) i)
  have hmain := maskFoldA unk E n first rest hrl hrv rest [] (by simp) first 0
    hfl (fun i => rfl) (by rw [negCount_eq_zero first hfv]; rfl) hexp
  set R := createVariantStateMask unk E false rest first 0 with hRdef
  obtain ⟨hlenR, hcR, hleR, hdisj⟩ := hmain
  have hstart : createVariantStateMask unk E false (first :: rest) [] (-1)
      = R := (maskFold_start unk E hexp first rest).trans hRdef.symm
  rw [hstart]
  have hnumdef : numVariantSites unk (first :: rest) n
      = ((List.range n).filter fun i =>
          decide (isVariantSite unk (colAt (first :: rest) i))).length := rfl
  have hmarkcount : ((List.range n).filter fun i =>
      decide (R.1.getD i 0 = -1)).length = negCount R.1 := by
    rw [← hlenR]
    exact markedIdx_length R.1
  constructor
  · constructor
    · intro hlt
      rcases hdisj with ⟨h1, h2⟩ | ⟨h1, h2⟩
      · have hfc : ((List.range n).filter fun i =>
            decide (isVariantSite unk (colAt (first :: rest) i)))
            = ((List.range n).filter fun i => decide (R.1.getD i 0 = -1)) := by
          apply List.filter_congr
          intro i _
          apply decide_eq_decide.mpr
          constructor
          · intro hv
            rw [h2 i]
            exact (hiff i).mpr hv
          · intro hn
            exact (hiff i).mp (by rw [← h2 i]; exact hn)
        rw [hnumdef, hfc, hmarkcount]
        omega
      · rw [h1] at hlt
        exact absurd hlt (lt_irrefl E)
    · intro hnum
      by_contra hge
      have hR2 : R.2 = E := le_antisymm hleR (not_lt.mp hge)
      have hmv : ∀ i : ℕ, R.1.getD i 0 = -1 →
          isVariantSite unk (colAt (first :: rest) i) := by
        intro i hneg
        rcases hdisj with ⟨h1, h2⟩ | ⟨h1, h2⟩
        · exact (hiff i).mp (by rw [← h2 i]; exact hneg)
        · exact (hiff i).mp (h2 i hneg)
      have hcount : negCount R.1 ≤ numVariantSites unk (first :: rest) n := by
        have hle2 := length_filter_le_of_imp (List.range n)
          (fun i => decide (R.1.getD i 0 = -1))
          (fun i => decide (isVariantSite unk (colAt (first :: rest) i)))
          (fun i _ hp => decide_eq_true (hmv i (of_decide_eq_true hp)))
        rw [hmarkcount] at hle2
        rw [hnumdef]
        exact hle2
      omega
  · intro hge
    have hR2 : R.2 = E := le_antisymm hleR (not_lt.mp hge)
    have hmv : ∀ i : ℕ, R.1.getD i 0 = -1 →
        isVariantSite unk (colAt (first :: rest) i) := by
      intro i hneg
      rcases hdisj with ⟨h1, h2⟩ | ⟨h1, h2⟩
      · exact (hiff i).mp (by rw [← h2 i]; exact hneg)
      · exact (hiff i).mp (h2 i hneg)
    refine ⟨markedIdx R.1, markedIdx_sorted R.1, ?_, ?_, ?_⟩
    · rw [markedIdx_length]
      omega
    · intro p hp
      rw [markedIdx_mem] at hp
      obtain ⟨hp1, hp2⟩ := hp
      rw [hlenR] at hp1
      exact ⟨hp1, hmv p hp2⟩
    · apply List.map_congr_left
      intro sq hsq
      have hsqlen : sq.length = n := by
        rcases List.mem_cons.mp hsq with h | h
        · rw [h]
          exact hfl
        · exact hrl sq h
      rw [compactLeaf_eq_collect E R.1 sq 0 (by omega)]
      exact collectMarked_eq_map R.1 sq (by rw [hlenR, hsqlen])

theorem scanLeaf_true_zip (unk expected : ℤ) :
    ∀ (ss ms : List ℤ) (c : ℤ), ms.length = ss.length →
      (scanLeaf unk expected true ms ss c).1
        = List.zipWith (fun a b => siteStep unk a b) ms ss := by
  intro ss
  induction ss with
  | nil =>
    intro ms c hlen
    rw [List.length_nil] at hlen
    rw [List.length_eq_zero] at hlen
    subst hlen
    simp [scanLeaf]
  | cons s ss ih =>
    intro ms c hlen
    cases ms with
    | nil => simp at hlen
    | cons m ms =>
      simp only [List.length_cons, Nat.succ_inj] at hlen
      simp only [scanLeaf]
      split_ifs with h1 h2 h3
      · rw [List.zipWith_cons_cons]
        have hstep : siteStep unk m s = s := by
          simp only [siteStep]
          rw [if_pos h1, if_pos h2]
        rw [hstep]
        exact congrArg (s :: ·) (ih ms c hlen)
      · simp at h3
      · rw [List.zipWith_cons_cons]
        have hstep : siteStep unk m s = -1 := by
          simp only [siteStep]
          rw [if_pos h1, if_neg h2]
        rw [hstep]
        exact congrArg ((-1) :: ·) (ih ms (c + 1) hlen)
      · rw [List.zipWith_cons_cons]
        have hstep : siteStep unk m s = m := by
          simp only [siteStep]
          rw [if_neg h1]
        rw [hstep]
        exact congrArg (m :: ·) (ih ms c hlen)

theorem scanLeaf_negCount_any (unk expected : ℤ) (indels : Bool) :
    ∀ (ss ms : List ℤ) (c : ℤ), (∀ s ∈ ss, ¬ s = -1) →
      (scanLeaf unk expected indels ms ss c).2
        = c + ((negCount (scanLeaf unk expected indels ms ss c).1 : ℤ)
            - (negCount ms : ℤ)) := by
  intro ss
  induction ss with
  | nil =>
    intro ms c _
    cases ms <;> simp [scanLeaf]
  | cons s ss ih =>
    intro ms c hss
    have hs1 : ¬ s = -1 := hss s (List.mem_cons_self s ss)
    have hss2 : ∀ x ∈ ss, ¬ x = -1 :=
      fun x hx => hss x (List.mem_cons_of_mem s hx)
    cases ms with
    | nil => simp [scanLeaf]
    | cons m ms =>
      simp only [scanLeaf]
      split_ifs with h1 h2 h3
      · have := ih ms c hss2
        rw [negCount_cons, negCount_cons, if_neg hs1, if_neg h1.1]
        omega
      · rw [negCount_cons, negCount_cons, if_pos rfl, if_neg h1.1]
        omega
      · have := ih ms (c + 1) hss2
        rw [negCount_cons, negCount_cons, if_pos rfl, if_neg h1.1]
        omega
      · have := ih ms c hss2
        by_cases hm : m = -1
        · rw [negCount_cons, negCount_cons, if_pos hm]
          omega
        · rw [negCount_cons, negCount_cons, if_neg hm]
          omega

theorem compactLeaf_true (expected : ℤ) :
    ∀ ms ss : List ℤ, ∀ c : ℤ,
      compactLeaf expected true ms ss c = collectMarked ms ss := by
  intro ms
  induction ms with
  | nil =>
    intro ss c
    cases ss <;> rfl
  | cons m ms ih =>
    intro ss c
    cases ss with
    | nil => rfl
    | cons s ss =>
      simp only [compactLeaf, collectMarked]
      split_ifs with hm hbr
      · simp at hbr
      · exact congrArg (s :: ·) (ih ss (c + 1))
      · exact ih ss c

theorem cvsm_cons_true (unk expected : ℤ) (sq : List ℤ)
    (rest : List (List ℤ)) (mask : List ℤ) (c : ℤ) (hc : ¬ c = -1) :
    createVariantStateMask unk expected true (sq :: rest) mask c
      = createVariantStateMask unk expected true rest
          (scanLeaf unk expected true mask sq c).1
          (scanLeaf unk expected true mask sq c).2 := by
  have hx : ¬ (c ≥ expected ∧ (true : Bool) = false) := by
    intro h
    exact absurd h.2 (by decide)
  show (if c ≥ expected ∧ (true : Bool) = false then (mask, c)
        else if c = -1 then createVariantStateMask unk expected true rest sq 0
        else createVariantStateMask unk expected true rest
          (scanLeaf unk expected true mask sq c).1
          (scanLeaf unk expected true mask sq c).2) = _
  rw [if_neg hx, if_neg hc]

theorem maskFold_start_true (unk expected : ℤ) (first : List ℤ)
    (rest : List (List ℤ)) :
    createVariantStateMask unk expected true (first :: rest) [] (-1)
      = createVariantStateMask unk expected true rest first 0 := by
  have hx : ¬ ((-1 : ℤ) ≥ expected ∧ (true : Bool) = false) := by
    intro h
    exact absurd h.2 (by decide)
  show (if (-1 : ℤ) ≥ expected ∧ (true : Bool) = false then (([] : List ℤ), (-1 : ℤ))
        else if (-1 : ℤ) = -1 then createVariantStateMask unk expected true rest first 0
        else createVariantStateMask unk expected true rest
          (scanLeaf unk expected true [] first (-1)).1
          (scanLeaf unk expected true [] first (-1)).2) = _
  rw [if_neg hx, if_pos rfl]

theorem maskFoldTrue (unk E : ℤ) (n : ℕ) (first : List ℤ)
    (rest : List (List ℤ))
    (hrl : ∀ sq ∈ rest, sq.length = n)
    (hrv : ∀ sq ∈ rest, ∀ s ∈ sq, ¬ s = -1) :
    ∀ (rest1 done : List (List ℤ)), rest = done ++ rest1 →
    ∀ (mask : List ℤ) (c : ℤ),
      mask.length = n →
      (∀ i : ℕ, mask.getD i 0
          = foldSite unk (first.getD i 0) (done.map fun sq => sq.getD i 0)) →
      c = (negCount mask : ℤ) →
      ((createVariantStateMask unk E true rest1 mask c).1.length = n
      ∧ (createVariantStateMask unk E true rest1 mask c).2
          = (negCount (createVariantStateMask unk E true rest1 mask c).1 : ℤ)
      ∧ ∀ i : ℕ,
          (createVariantStateMask unk E true rest1 mask c).1.getD i 0
            = foldSite unk (first.getD i 0) (rest.map fun sq => sq.getD i 0)) := by
  intro rest1
  induction rest1 with
  | nil =>
    intro done hsplit mask c hlen hmask hc
    simp only [createVariantStateMask]
    have hdone : rest = done := by rw [hsplit, List.append_nil]
    refine ⟨hlen, hc, fun i => ?_⟩
    rw [hdone]
    exact hmask i
  | cons sq rest2 ih =>
    intro done hsplit mask c hlen hmask hc
    have hsqmem : sq ∈ rest := by
      rw [hsplit]
      exact List.mem_append_right done (List.mem_cons_self sq rest2)
    have hsqlen : sq.length = n := hrl sq hsqmem
    have hsqv : ∀ s ∈ sq, ¬ s = -1 := hrv sq hsqmem
    have hsplit2 : rest = (done ++ [sq]) ++ rest2 := by
      rw [hsplit, List.append_assoc, List.singleton_append]
    rw [cvsm_cons_true unk E sq rest2 mask c (by omega)]
    have hlen1 : (scanLeaf unk E true mask sq c).1.length = n := by
      rw [scanLeaf_len unk E true sq mask c, hlen]
    have hnc1 : (scanLeaf unk E true mask sq c).2
        = (negCount (scanLeaf unk E true mask sq c).1 : ℤ) := by
      have h := scanLeaf_negCount_any unk E true sq mask c hsqv
      omega
    have hzip := scanLeaf_true_zip unk E sq mask c (by rw [hlen, hsqlen])
    have hmask2 : ∀ i : ℕ, (scanLeaf unk E true mask sq c).1.getD i 0
        = foldSite unk (first.getD i 0)
            ((done ++ [sq]).map fun sq => sq.getD i 0) := by
      intro i
      rw [hzip, zipWith_siteStep_getD unk mask sq (by rw [hlen, hsqlen]) i,
        hmask i, List.map_append, foldSite_append]
      rfl
    exact ih (done ++ [sq]) hsplit2 (scanLeaf unk E true mask sq c).1
      (scanLeaf unk E true mask sq c).2 hlen1 hmask2 hnc1

theorem variantMask_core_true (unk E : ℤ) (n : ℕ) (first : List ℤ)
    (rest : List (List ℤ)) (hu : 0 ≤ unk)
    (hfl : first.length = n) (hrl : ∀ sq ∈ rest, sq.length = n)
    (hval : ∀ sq ∈ first :: rest, ∀ s ∈ sq, 0 ≤ s) :
    ((createVariantStateMask unk E true (first :: rest) [] (-1)).2 < E
      ↔ (numVariantSites unk (first :: rest) n : ℤ) < E)
    ∧ ((first :: rest).map fun sq =>
        compactLeaf E true
          (createVariantStateMask unk E true (first :: rest) [] (-1)).1 sq 0)
      = (first :: rest).map fun sq =>
          (variantPositionList unk (first :: rest) n).map fun p =>
            sq.getD p 0 := by
  have hvne : ∀ sq ∈ first :: rest, ∀ s ∈ sq, ¬ s = -1 := by
    intro sq hsq s hs
    have := hval sq hsq s hs
    omega
  have hrv : ∀ sq ∈ rest, ∀ s ∈ sq, ¬ s = -1 :=
    fun sq hsq => hvne sq (List.mem_cons_of_mem first hsq)
  have hfv : ∀ s ∈ first, ¬ s = -1 := hvne first (List.mem_cons_self first rest)
  have hgetD : ∀ sq ∈ first :: rest, ∀ i : ℕ, ¬ sq.getD i 0 = -1 := by
    intro sq hsq i
    have := getD_nonneg sq (hval sq hsq) i
    omega
  have hiff : ∀ i : ℕ,
      (foldSite unk (first.getD i 0) (rest.map fun sq => sq.getD i 0) = -1)
        ↔ isVariantSite unk (colAt (first :: rest) i) := by
    intro i
    have hcol : colAt (first :: rest) i
        = first.getD i 0 :: (rest.map fun sq => sq.getD i 0) := rfl
    rw [hcol]
    exact foldSite_col_iff unk (first.getD i 0) _ (by omega)
      (hgetD first (List.mem_cons_self first rest) i)
      (fun s hs => by
        rcases List.mem_map.mp hs with ⟨sq, hsq, hrfl⟩
        rw [← hrfl]
        exact hgetD sq (List.mem_cons_of_mem first hsq) i)
  have hmain := maskFoldTrue unk E n first rest hrl hrv rest [] (by simp)
    first 0 hfl (fun i => rfl) (by rw [negCount_eq_zero first hfv]; rfl)
  set R := createVariantStateMask unk E true rest first 0 with hRdef
  obtain ⟨hlenR, hcR, hfold⟩ := hmain
  have hstart : createVariantStateMask unk E true (first :: rest) [] (-1)
      = R := (maskFold_start_true unk E first rest).trans hRdef.symm
  rw [hstart]
  have hmarkeq : markedIdx R.1 = variantPositionList unk (first :: rest) n := by
    unfold markedIdx variantPositionList
    rw [hlenR]
    apply List.filter_congr
    intro i _
    apply decide_eq_decide.mpr
    constructor
    · intro hn
      exact (hiff i).mp (by rw [← hfold i]; exact hn)
    · intro hv
      rw [hfold i]
      exact (hiff i).mpr hv
  constructor
  · have hnum : ((numVariantSites unk (first :: rest) n : ℕ) : ℤ) = R.2 := by
      have hlen2 : (markedIdx R.1).length = negCount R.1 := markedIdx_length R.1
      rw [hmarkeq] at hlen2
      have : numVariantSites unk (first :: rest) n = negCount R.1 := hlen2
      rw [this, ← hcR]
    rw [← hnum]
  · apply List.map_congr_left
    intro sq hsq
    have hsqlen : sq.length = n := by
      rcases List.mem_cons.mp hsq with h | h
      · rw [h]
        exact hfl
      · exact hrl sq h
    rw [compactLeaf_true E R.1 sq 0,
      collectMarked_eq_map R.1 sq (by rw [hlenR, hsqlen]), hmarkeq]

/-- Claim C5 (amended): `removeConstantSites` reports a fatal error exactly
when the number of variant sites (sites whose column over the leaves holds
two distinct non-unknown states) is smaller than
`round(expected_num_sites / length_ratio)` — with indels enabled or disabled.
With indels enabled (no early exits in the mask pass or the compaction),
every leaf is replaced by the subsequence at exactly its variant positions.
With indels disabled, on success every leaf is replaced by the subsequence
at one common increasing list of exactly
`round(expected_num_sites / length_ratio)` positions, each of which is a
variant site — but not necessarily the positionally first such sites, as the
frozen claim words it (see the counterexample). -/
theorem claim_C5 (unk L : ℤ) (rho : ℚ) (n : ℕ) (first : List ℤ)
    (rest : List (List ℤ)) (hu : 0 ≤ unk) (hL : 0 ≤ L) (hrho : 1 < rho)
    (hfl : first.length = n) (hrl : ∀ sq ∈ rest, sq.length = n)
    (hval : ∀ sq ∈ first :: rest, ∀ s ∈ sq, 0 ≤ s) :
    (∀ indels : Bool,
      removeConstantSites unk L rho indels (first :: rest) = none
        ↔ (numVariantSites unk (first :: rest) n : ℤ)
            < roundHalfFromZero ((L : ℚ) / rho))
    ∧ (∀ out, removeConstantSites unk L rho true (first :: rest) = some out →
        out = (first :: rest).map fun sq =>
          (variantPositionList unk (first :: rest) n).map fun p => sq.getD p 0)
    ∧ (∀ out, removeConstantSites unk L rho false (first :: rest) = some out →
        ∃ pos : List ℕ, pos.Pairwise (fun a b => a < b)
          ∧ (pos.length : ℤ) = roundHalfFromZero ((L : ℚ) / rho)
          ∧ (∀ p ∈ pos, p < n ∧ isVariantSite unk (colAt (first :: rest) p))
          ∧ out = (first :: rest).map fun sq => pos.map fun p => sq.getD p 0) := by
  have hexp : 0 ≤ roundHalfFromZero ((L : ℚ) / rho) :=
    roundHalfFromZero_nonneg _ (div_nonneg (by exact_mod_cast hL) (by linarith))
  have hcoreF := variantMask_core unk (roundHalfFromZero ((L : ℚ) / rho)) n
    first rest hu hexp hfl hrl hval
  have hcoreT := variantMask_core_true unk (roundHalfFromZero ((L : ℚ) / rho)) n
    first rest hu hfl hrl hval
  have hunfF : removeConstantSites unk L rho false (first :: rest)
      = (if (createVariantStateMask unk (roundHalfFromZero ((L : ℚ) / rho))
              false (first :: rest) [] (-1)).2
            < roundHalfFromZero ((L : ℚ) / rho)
         then none
         else some ((first :: rest).map fun sq =>
           compactLeaf (roundHalfFromZero ((L : ℚ) / rho)) false
             (createVariantStateMask unk (roundHalfFromZero ((L : ℚ) / rho))
               false (first :: rest) [] (-1)).1 sq 0)) := rfl
  have hunfT : removeConstantSites unk L rho true (first :: rest)
      = (if (createVariantStateMask unk (roundHalfFromZero ((L : ℚ) / rho))
              true (first :: rest) [] (-1)).2
            < roundHalfFromZero ((L : ℚ) / rho)
         then none
         else some ((first :: rest).map fun sq =>
           compactLeaf (roundHalfFromZero ((L : ℚ) / rho)) true
             (createVariantStateMask unk (roundHalfFromZero ((L : ℚ) / rho))
               true (first :: rest) [] (-1)).1 sq 0)) := rfl
  refine ⟨?_, ?_, ?_⟩
  · intro indels
    cases indels
    · rw [hunfF]
      constructor
      · intro hnone
        by_cases hlt : (createVariantStateMask unk
            (roundHalfFromZero ((L : ℚ) / rho)) false (first :: rest) [] (-1)).2
            < roundHalfFromZero ((L : ℚ) / rho)
        · exact hcoreF.1.mp hlt
        · rw [if_neg hlt] at hnone
          exact absurd hnone (by simp)
      · intro hnum
        rw [if_pos (hcoreF.1.mpr hnum)]
    · rw [hunfT]
      constructor
      · intro hnone
        by_cases hlt : (createVariantStateMask unk
            (roundHalfFromZero ((L : ℚ) / rho)) true (first :: rest) [] (-1)).2
            < roundHalfFromZero ((L : ℚ) / rho)
        · exact hcoreT.1.mp hlt
        · rw [if_neg hlt] at hnone
          exact absurd hnone (by simp)
      · intro hnum
        rw [if_pos (hcoreT.1.mpr hnum)]
  · intro out hout
    rw [hunfT] at hout
    by_cases hlt : (createVariantStateMask unk
        (roundHalfFromZero ((L : ℚ) / rho)) true (first :: rest) [] (-1)).2
        < roundHalfFromZero ((L : ℚ) / rho)
    · rw [if_pos hlt] at hout
      exact absurd hout (by simp)
    · rw [if_neg hlt] at hout
      injection hout with h
      exact h.symm.trans hcoreT.2
  · intro out hout
    rw [hunfF] at hout
    by_cases hlt : (createVariantStateMask unk
        (roundHalfFromZero ((L : ℚ) / rho)) false (first :: rest) [] (-1)).2
        < roundHalfFromZero ((L : ℚ) / rho)
    · rw [if_pos hlt] at hout
      exact absurd hout (by simp)
    · rw [if_neg hlt] at hout
      obtain ⟨pos, hpw, hlen, hprop, hmap⟩ := hcoreF.2 hlt
      injection hout with h
      exact ⟨pos, hpw, hlen, hprop, h.symm.trans hmap⟩

theorem c5_round : roundHalfFromZero (((2 : ℤ) : ℚ) / 2) = 1 := by
  unfold roundHalfFromZero
  rw [if_pos (by norm_num)]
  rw [show (((2 : ℤ) : ℚ) / 2 + 1/2) = 3/2 by norm_num]
  rw [Int.floor_eq_iff]
  norm_num

theorem c5_run :
    removeConstantSites 100 2 2 false [[2,0],[2,1],[3,0]]
      = some [[0],[1],[0]] := by
  have h : removeConstantSites 100 2 2 false [[2,0],[2,1],[3,0]]
      = (if (createVariantStateMask 100 (roundHalfFromZero (((2:ℤ):ℚ)/2))
              false [[2,0],[2,1],[3,0]] [] (-1)).2
            < roundHalfFromZero (((2:ℤ):ℚ)/2)
         then none
         else some (([[2,0],[2,1],[3,0]] : List (List ℤ)).map fun sq =>
           compactLeaf (roundHalfFromZero (((2:ℤ):ℚ)/2)) false
             (createVariantStateMask 100 (roundHalfFromZero (((2:ℤ):ℚ)/2))
               false [[2,0],[2,1],[3,0]] [] (-1)).1 sq 0)) := rfl
  rw [h, c5_round]
  decide

theorem c5_claimed :
    claimC5Compact 100 2 2 [[2,0],[2,1],[3,0]] 2 = [[2],[2],[3]] := by
  unfold claimC5Compact
  rw [c5_round]
  decide

/-- Claim C5, as frozen, is false on the code: with leaves
`[2,0], [2,1], [3,0]` (DFS order), unknown state `100`, expected length 2 and
length ratio 2 (so one variant site is to be kept), both site 0 and site 1
are variant, and the frozen claim's reading keeps the positionally first
variant site (site 0, states `2,2,3`), but the code keeps the site its
mask-building pass marked first (site 1, states `0,1,0`). -/
theorem claim_C5_counterexample :
    removeConstantSites 100 2 2 false [[2,0],[2,1],[3,0]] = some [[0],[1],[0]]
    ∧ claimC5Compact 100 2 2 [[2,0],[2,1],[3,0]] 2 = [[2],[2],[3]]
    ∧ ¬ ([[0],[1],[0]] : List (List ℤ)) = [[2],[2],[3]] :=
  ⟨c5_run, c5_claimed, by decide⟩

/-- Witness for claim C5 at the two-leaf alignment `[0,1]`, `[1,1]` with
unknown state `100`, expected length 2 and length ratio 2. -/
theorem claim_C5_witness :
    ((0:ℤ) ≤ 100 ∧ (0:ℤ) ≤ 2 ∧ (1:ℚ) < 2)
    ∧ (removeConstantSites 100 2 2 false [[0,1],[1,1]] = none
        ↔ (numVariantSites 100 [[0,1],[1,1]] 2 : ℤ)
            < roundHalfFromZero (((2:ℤ):ℚ)/2)) :=
  ⟨⟨by norm_num, by norm_num, by norm_num⟩,
    (claim_C5 100 2 2 2 [0,1] [[1,1]] (by norm_num) (by norm_num) (by norm_num)
      rfl (by decide) (by decide)).1 false⟩

end AliSim
